import Mathlib

/-!
# FontGet-Sources: verification of the field-normalization layer

Shallow embedding of the FontGet source-translator scripts
(`src/scripts/google-fonts-translator.py`, `font-squirrel-translator.py`,
`nerd-fonts-translator.py`, `open-foundry-translator.py`,
`src/scripts/translator-template.py`) and of the validator
(`src/schemas/validate-sources.py`).

Modelling conventions:
* Python strings are Lean `String` (a list of characters); `str.lower()` is
  a character-wise `Char.toLower` map (the characters the scripts care
  about are ASCII).
* Python dicts keyed by strings are insertion-ordered association lists;
  `d[k] = v` overwrites in place (keeping the original position) or
  appends.
* Python exceptions are `Except String`; a subscript access `d["k"]` on a
  possibly-missing key is an `Except` lookup, `d.get("k", default)` is a
  total lookup.
* The current wall-clock time and the interpreter's set-iteration order -
  both of which a run of a script observes - are threaded through a
  `RunEnv` value.
-/

/-- Characterwise model of Python's `str.lower()` on a character list. -/
def pyLowerL (l : List Char) : List Char := l.map Char.toLower

/-- Model of Python's `str.lower()`. -/
def pyLower (s : String) : String := ⟨pyLowerL s.data⟩

namespace Slug

/-- Characters the cleaned id may keep: the class `[a-z0-9-]` of the regex
in `_clean_id`. -/
def isAllowed (c : Char) : Bool :=
  (('a' ≤ c && c ≤ 'z') || ('0' ≤ c && c ≤ '9') || c == '-')

/-- Lower-case letters and digits (the class `[a-z0-9]`). -/
def isAlnumLower (c : Char) : Bool :=
  (('a' ≤ c && c ≤ 'z') || ('0' ≤ c && c ≤ '9'))

/-- `re.sub(r"[^a-z0-9-]", "-", ...)`: every character outside the allowed
class becomes a hyphen. -/
def replaceBad (l : List Char) : List Char :=
  l.map (fun c => if isAllowed c then c else '-')

/-- `re.sub(r"-+", "-", ...)`: collapse runs of hyphens to a single one.
The flag records whether the previously emitted character was a hyphen. -/
def collapse : Bool → List Char → List Char
  | _, [] => []
  | prevH, c :: rest =>
    if c == '-' then
      if prevH then collapse true rest else '-' :: collapse true rest
    else c :: collapse false rest

/-- Remove a trailing run of hyphens (the right half of `.strip("-")`). -/
def stripTrailing : List Char → List Char
  | [] => []
  | c :: rest =>
    if (stripTrailing rest).isEmpty && c == '-' then [] else c :: stripTrailing rest

/-- The full pipeline of `_clean_id` on a character list: lower-case,
replace disallowed characters, collapse hyphen runs, strip hyphens from
both ends. -/
def run (l : List Char) : List Char :=
  stripTrailing ((collapse false (replaceBad (pyLowerL l))).dropWhile (· == '-'))

end Slug

/-- `_clean_id` of `open-foundry-translator.py` / `translator-template.py`
(the same character pipeline is inlined in the Google Fonts, Font Squirrel
and Nerd Fonts translators): lower-case, replace every character outside
`[a-z0-9-]` with `-`, collapse `-` runs, strip leading/trailing `-`. -/
def clean_id (s : String) : String := ⟨Slug.run s.data⟩

/-- No two adjacent hyphens. -/
def noDouble : List Char → Bool
  | [] => true
  | c :: rest => !(c == '-' && rest.head? == some '-') && noDouble rest

/-- Executable form of the regular expression `^[a-z0-9]+(-[a-z0-9]+)*$`
as a two-state automaton: the flag says whether we are inside an
alphanumeric token (and hence may stop, or accept a separating hyphen). -/
def slugDFA : List Char → Bool → Bool
  | [], inTok => inTok
  | c :: rest, inTok =>
    if Slug.isAlnumLower c then slugDFA rest true
    else if c == '-' && inTok then slugDFA rest false
    else false

/-- The slug shape demanded by the spec: empty, or matching
`^[a-z0-9]+(-[a-z0-9]+)*$`. -/
def matchesSlugOrEmpty (s : String) : Bool :=
  s.data.isEmpty || slugDFA s.data false

namespace Slug

theorem all_replaceBad (l : List Char) : (replaceBad l).all isAllowed = true := by
  induction l with
  | nil => rfl
  | cons c rest ih =>
    simp only [replaceBad, List.map_cons, List.all_cons, Bool.and_eq_true] at ih ⊢
    constructor
    · by_cases h : isAllowed c = true
      · rw [if_pos h]; exact h
      · rw [if_neg h]; decide
    · exact ih

theorem all_collapse (p : Char → Bool) (hdash : p '-' = true) :
    ∀ (l : List Char) (b : Bool), l.all p = true → (collapse b l).all p = true := by
  intro l
  induction l with
  | nil => intro b _; rfl
  | cons c rest ih =>
    intro b hall
    simp only [List.all_cons, Bool.and_eq_true] at hall
    cases hc : (c == '-') with
    | true =>
      cases b with
      | true =>
        have step : collapse true (c :: rest) = collapse true rest := by
          simp [collapse, hc]
        rw [step]; exact ih true hall.2
      | false =>
        have step : collapse false (c :: rest) = '-' :: collapse true rest := by
          simp [collapse, hc]
        rw [step]
        simp only [List.all_cons, Bool.and_eq_true]
        exact ⟨hdash, ih true hall.2⟩
    | false =>
      have step : collapse b (c :: rest) = c :: collapse false rest := by
        simp [collapse, hc]
      rw [step]
      simp only [List.all_cons, Bool.and_eq_true]
      exact ⟨hall.1, ih false hall.2⟩

theorem all_dropWhile (p q : Char → Bool) (l : List Char) (h : l.all p = true) :
    (l.dropWhile q).all p = true := by
  induction l with
  | nil => rfl
  | cons c rest ih =>
    simp only [List.all_cons, Bool.and_eq_true] at h
    cases hq : q c with
    | true =>
      have step : (c :: rest).dropWhile q = rest.dropWhile q := by
        simp [List.dropWhile, hq]
      rw [step]; exact ih h.2
    | false =>
      have step : (c :: rest).dropWhile q = c :: rest := by
        simp [List.dropWhile, hq]
      rw [step]
      simp only [List.all_cons, Bool.and_eq_true]
      exact h

theorem all_stripTrailing (p : Char → Bool) (l : List Char) (h : l.all p = true) :
    (stripTrailing l).all p = true := by
  induction l with
  | nil => rfl
  | cons c rest ih =>
    simp only [List.all_cons, Bool.and_eq_true] at h
    by_cases hc : ((stripTrailing rest).isEmpty && c == '-') = true
    · have step : stripTrailing (c :: rest) = [] := by
        simp only [stripTrailing]; rw [if_pos hc]
      rw [step]; rfl
    · have step : stripTrailing (c :: rest) = c :: stripTrailing rest := by
        simp only [stripTrailing]; rw [if_neg hc]
      rw [step]
      simp only [List.all_cons, Bool.and_eq_true]
      exact ⟨h.1, ih h.2⟩

theorem noDouble_tail {c : Char} {l : List Char} (h : noDouble (c :: l) = true) :
    noDouble l = true := by
  simp only [noDouble, Bool.and_eq_true] at h
  exact h.2

theorem head?_collapse_true (l : List Char) :
    (collapse true l).head? ≠ some '-' := by
  induction l with
  | nil => simp [collapse]
  | cons c rest ih =>
    cases hc : (c == '-') with
    | true =>
      have step : collapse true (c :: rest) = collapse true rest := by
        simp [collapse, hc]
      rw [step]; exact ih
    | false =>
      have step : collapse true (c :: rest) = c :: collapse false rest := by
        simp [collapse, hc]
      rw [step, List.head?_cons]
      intro hcon
      have hcd : c = '-' := Option.some_inj.mp hcon
      subst hcd
      simp at hc

theorem noDouble_collapse : ∀ (l : List Char) (b : Bool),
    noDouble (collapse b l) = true := by
  intro l
  induction l with
  | nil => intro b; rfl
  | cons c rest ih =>
    intro b
    cases hc : (c == '-') with
    | true =>
      cases b with
      | true =>
        have step : collapse true (c :: rest) = collapse true rest := by
          simp [collapse, hc]
        rw [step]; exact ih true
      | false =>
        have step : collapse false (c :: rest) = '-' :: collapse true rest := by
          simp [collapse, hc]
        rw [step]
        simp only [noDouble, Bool.and_eq_true]
        refine ⟨?_, ih true⟩
        have hhd := head?_collapse_true rest
        cases hh : (collapse true rest).head? with
        | none =>
          have : ((none : Option Char) == some '-') = false := rfl
          rw [this, Bool.and_false]
          rfl
        | some d =>
          have hd : ¬ d = '-' := fun hdd => hhd (by rw [hh, hdd])
          simp [hd]
    | false =>
      have step : collapse b (c :: rest) = c :: collapse false rest := by
        simp [collapse, hc]
      rw [step]
      simp only [noDouble, Bool.and_eq_true]
      refine ⟨?_, ih false⟩
      simp [hc]

theorem noDouble_dropWhile (q : Char → Bool) (l : List Char)
    (h : noDouble l = true) : noDouble (l.dropWhile q) = true := by
  induction l with
  | nil => rfl
  | cons c rest ih =>
    cases hq : q c with
    | true =>
      have step : (c :: rest).dropWhile q = rest.dropWhile q := by
        simp [List.dropWhile, hq]
      rw [step]; exact ih (noDouble_tail h)
    | false =>
      have step : (c :: rest).dropWhile q = c :: rest := by
        simp [List.dropWhile, hq]
      rw [step]; exact h

theorem head?_stripTrailing {l : List Char} {h : Char}
    (hh : (stripTrailing l).head? = some h) : l.head? = some h := by
  cases l with
  | nil => simp [stripTrailing] at hh
  | cons c rest =>
    by_cases hc : ((stripTrailing rest).isEmpty && c == '-') = true
    · have step : stripTrailing (c :: rest) = [] := by
        simp only [stripTrailing]; rw [if_pos hc]
      rw [step] at hh
      simp at hh
    · have step : stripTrailing (c :: rest) = c :: stripTrailing rest := by
        simp only [stripTrailing]; rw [if_neg hc]
      rw [step, List.head?_cons] at hh
      rw [List.head?_cons]
      exact hh

theorem noDouble_stripTrailing (l : List Char) (h : noDouble l = true) :
    noDouble (stripTrailing l) = true := by
  induction l with
  | nil => rfl
  | cons c rest ih =>
    by_cases hc : ((stripTrailing rest).isEmpty && c == '-') = true
    · have step : stripTrailing (c :: rest) = [] := by
        simp only [stripTrailing]; rw [if_pos hc]
      rw [step]; rfl
    · have step : stripTrailing (c :: rest) = c :: stripTrailing rest := by
        simp only [stripTrailing]; rw [if_neg hc]
      rw [step]
      simp only [noDouble, Bool.and_eq_true]
      refine ⟨?_, ih (noDouble_tail h)⟩
      simp only [noDouble, Bool.and_eq_true] at h
      have h1 := h.1
      cases hh : (stripTrailing rest).head? with
      | none =>
        have : ((none : Option Char) == some '-') = false := rfl
        rw [this, Bool.and_false]
        rfl
      | some d =>
        have hmem : rest.head? = some d := head?_stripTrailing hh
        rw [hmem] at h1
        exact h1

theorem getLast?_stripTrailing (l : List Char) :
    (stripTrailing l).getLast? ≠ some '-' := by
  induction l with
  | nil => simp [stripTrailing]
  | cons c rest ih =>
    by_cases hc : ((stripTrailing rest).isEmpty && c == '-') = true
    · have step : stripTrailing (c :: rest) = [] := by
        simp only [stripTrailing]; rw [if_pos hc]
      rw [step]; simp
    · have step : stripTrailing (c :: rest) = c :: stripTrailing rest := by
        simp only [stripTrailing]; rw [if_neg hc]
      rw [step]
      cases hr : stripTrailing rest with
      | nil =>
        rw [List.getLast?_singleton]
        intro hcon
        have hcd : c = '-' := Option.some_inj.mp hcon
        apply hc
        rw [hr, hcd]
        decide
      | cons d t =>
        rw [List.getLast?_cons_cons]
        rw [hr] at ih
        exact ih

theorem stripTrailing_eq_self (l : List Char) (h : l.getLast? ≠ some '-') :
    stripTrailing l = l := by
  induction l with
  | nil => rfl
  | cons c rest ih =>
    by_cases hrnil : rest = []
    · subst hrnil
      have hcd : (c == '-') = false := by
        rcases Bool.eq_false_or_eq_true (c == '-') with hcc | hcc
        · exact absurd (by rw [List.getLast?_singleton, beq_iff_eq.mp hcc]) h
        · exact hcc
      simp [stripTrailing, hcd]
    · have hlast2 : rest.getLast? ≠ some '-' := by
        cases hr : rest with
        | nil => exact absurd hr hrnil
        | cons d t =>
          have h2 : (c :: d :: t).getLast? ≠ some '-' := hr ▸ h
          rw [List.getLast?_cons_cons] at h2
          exact h2
      have hst := ih hlast2
      have hne : (stripTrailing rest).isEmpty = false := by
        rw [hst]
        cases hr : rest with
        | nil => exact absurd hr hrnil
        | cons d t => rfl
      have step : stripTrailing (c :: rest) = c :: stripTrailing rest := by
        simp [stripTrailing, hne]
      rw [step, hst]

theorem collapse_eq_self : ∀ (l : List Char), noDouble l = true →
    (collapse false l = l ∧ (l.head? ≠ some '-' → collapse true l = l)) := by
  intro l
  induction l with
  | nil => intro _; exact ⟨rfl, fun _ => rfl⟩
  | cons c rest ih =>
    intro h
    obtain ⟨ihF, ihT⟩ := ih (noDouble_tail h)
    cases hc : (c == '-') with
    | true =>
      have hcd : c = '-' := beq_iff_eq.mp hc
      have hhd : rest.head? ≠ some '-' := by
        simp only [noDouble, Bool.and_eq_true] at h
        have h1 := h.1
        rw [hc] at h1
        intro hcon
        rw [hcon] at h1
        simp at h1
      constructor
      · have step : collapse false (c :: rest) = '-' :: collapse true rest := by
          simp [collapse, hc]
        rw [step, ihT hhd, hcd]
      · intro hne
        exact absurd (by rw [List.head?_cons, hcd]) hne
    | false =>
      have stepF : collapse false (c :: rest) = c :: collapse false rest := by
        simp [collapse, hc]
      have stepT : collapse true (c :: rest) = c :: collapse false rest := by
        simp [collapse, hc]
      exact ⟨by rw [stepF, ihF], fun _ => by rw [stepT, ihF]⟩

theorem dropWhile_eq_self_of_head (l : List Char) (h : l.head? ≠ some '-') :
    l.dropWhile (· == '-') = l := by
  cases l with
  | nil => rfl
  | cons c rest =>
    have hc : (c == '-') = false := by
      rcases Bool.eq_false_or_eq_true (c == '-') with hcc | hcc
      · exact absurd (by rw [List.head?_cons, beq_iff_eq.mp hcc]) h
      · exact hcc
    simp [List.dropWhile, hc]

theorem allowed_not_hyphen_alnum {c : Char} (ha : isAllowed c = true)
    (hh : (c == '-') = false) : isAlnumLower c = true := by
  simp only [isAllowed, Bool.or_eq_true] at ha
  rcases ha with (h | h) | h
  · simp [isAlnumLower, h]
  · simp [isAlnumLower, h]
  · rw [h] at hh
    exact absurd hh (by decide)

/-- The automaton accepts every hyphen-separated word over the allowed
alphabet that has no double hyphen and no hyphen at either end. -/
theorem slugDFA_accepts : ∀ (l : List Char),
    l.all isAllowed = true → noDouble l = true → l.getLast? ≠ some '-' →
    (slugDFA l true = true ∧
      (l.head? ≠ some '-' → l ≠ [] → slugDFA l false = true)) := by
  intro l
  induction l with
  | nil => intro _ _ _; exact ⟨rfl, fun _ hne => absurd rfl hne⟩
  | cons c rest ih =>
    intro hall hnd hlast
    simp only [List.all_cons, Bool.and_eq_true] at hall
    have hrest_last : rest.getLast? ≠ some '-' := by
      cases hr : rest with
      | nil => simp
      | cons d t =>
        have h2 : (c :: d :: t).getLast? ≠ some '-' := hr ▸ hlast
        rw [List.getLast?_cons_cons] at h2
        exact h2
    have hih := ih hall.2 (noDouble_tail hnd) hrest_last
    cases hc : (c == '-') with
    | true =>
      have hcd : c = '-' := beq_iff_eq.mp hc
      have hrest_ne : rest ≠ [] := by
        intro hr
        apply hlast
        rw [hr, hcd]
        rfl
      have hrest_hd : rest.head? ≠ some '-' := by
        simp only [noDouble, Bool.and_eq_true] at hnd
        have h1 := hnd.1
        rw [hc] at h1
        intro hcon
        rw [hcon] at h1
        simp at h1
      have hna : isAlnumLower c = false := by
        rw [hcd]; decide
      constructor
      · have step : slugDFA (c :: rest) true = slugDFA rest false := by
          simp [slugDFA, hna, hc]
        rw [step]
        exact hih.2 hrest_hd hrest_ne
      · intro hhd _
        exact absurd (by rw [List.head?_cons, hcd]) hhd
    | false =>
      have hal : isAlnumLower c = true :=
        allowed_not_hyphen_alnum hall.1 hc
      have step : ∀ b, slugDFA (c :: rest) b = slugDFA rest true := by
        intro b; simp [slugDFA, hal]
      exact ⟨by rw [step true]; exact hih.1,
        fun _ _ => by rw [step false]; exact hih.1⟩

theorem run_all (l : List Char) : (run l).all isAllowed = true := by
  unfold run
  apply all_stripTrailing
  apply all_dropWhile
  apply all_collapse
  · rfl
  · exact all_replaceBad _

theorem run_noDouble (l : List Char) : noDouble (run l) = true := by
  unfold run
  apply noDouble_stripTrailing
  apply noDouble_dropWhile
  apply noDouble_collapse

theorem run_head (l : List Char) : (run l).head? ≠ some '-' := by
  unfold run
  intro hcon
  have h1 := head?_stripTrailing hcon
  have h2 := List.head?_dropWhile_not (· == '-')
    (collapse false (replaceBad (pyLowerL l)))
  rw [h1] at h2
  simp at h2

theorem run_last (l : List Char) : (run l).getLast? ≠ some '-' :=
  getLast?_stripTrailing _

theorem toLower_allowed {c : Char} (h : isAllowed c = true) :
    c.toLower = c := by
  simp only [isAllowed, Bool.or_eq_true, Bool.and_eq_true] at h
  have hno : ¬(c.toNat ≥ 65 ∧ c.toNat ≤ 90) := by
    rcases h with (⟨h1, h2⟩ | ⟨h1, h2⟩) | h1
    · have h1p : 'a' ≤ c := of_decide_eq_true h1
      rw [Char.le_def] at h1p
      have h97 : 97 ≤ c.toNat := h1p
      omega
    · have h2p : c ≤ '9' := of_decide_eq_true h2
      rw [Char.le_def] at h2p
      have h57 : c.toNat ≤ 57 := h2p
      omega
    · have hcd : c = '-' := beq_iff_eq.mp h1
      subst hcd
      decide
  show (if c.toNat ≥ 65 ∧ c.toNat ≤ 90 then Char.ofNat (c.toNat + 32) else c) = c
  rw [if_neg hno]

theorem pyLowerL_id_of_allowed (l : List Char) (h : l.all isAllowed = true) :
    pyLowerL l = l := by
  induction l with
  | nil => rfl
  | cons c rest ih =>
    simp only [List.all_cons, Bool.and_eq_true] at h
    simp only [pyLowerL, List.map_cons]
    rw [toLower_allowed h.1]
    have hr := ih h.2
    simp only [pyLowerL] at hr
    rw [hr]

theorem replaceBad_id_of_allowed (l : List Char) (h : l.all isAllowed = true) :
    replaceBad l = l := by
  induction l with
  | nil => rfl
  | cons c rest ih =>
    simp only [List.all_cons, Bool.and_eq_true] at h
    simp only [replaceBad, List.map_cons, h.1, if_true]
    have hr := ih h.2
    simp only [replaceBad] at hr
    rw [hr]

/-- `run` is the identity on its own output. -/
theorem run_idem (l : List Char) : run (run l) = run l := by
  have hall := run_all l
  have hnd := run_noDouble l
  have hhd := run_head l
  have hlast := run_last l
  conv_lhs => rw [run]
  rw [pyLowerL_id_of_allowed _ hall, replaceBad_id_of_allowed _ hall,
    (collapse_eq_self _ hnd).1, dropWhile_eq_self_of_head _ hhd,
    stripTrailing_eq_self _ hlast]

theorem run_matches (l : List Char) :
    (List.isEmpty (run l) || slugDFA (run l) false) = true := by
  cases hr : run l with
  | nil => rfl
  | cons c rest =>
    have hall := run_all l
    have hnd := run_noDouble l
    have hhd := run_head l
    have hlast := run_last l
    rw [hr] at hall hnd hhd hlast
    have hacc := (slugDFA_accepts _ hall hnd hlast).2 hhd (List.cons_ne_nil c rest)
    simp [hacc]

end Slug

/-- **C2.** `_clean_id` (the font-id slugifier) is total (a Lean function;
empty input yields the empty string), idempotent, and its output is empty
or matches `^[a-z0-9]+(-[a-z0-9]+)*$`. -/
theorem clean_id_total_idempotent_shape :
    (∀ s : String, clean_id (clean_id s) = clean_id s) ∧
    (∀ s : String, matchesSlugOrEmpty (clean_id s) = true) ∧
    clean_id "" = "" := by
  refine ⟨fun s => ?_, fun s => ?_, rfl⟩
  · show String.mk (Slug.run (Slug.run s.data)) = String.mk (Slug.run s.data)
    rw [Slug.run_idem]
  · show (List.isEmpty (Slug.run s.data) || slugDFA (Slug.run s.data) false) = true
    exact Slug.run_matches s.data

/-! ## Substring containment (Python's `needle in haystack`) -/

/-- Python's `needle in haystack` for strings, as a character-list scan. -/
def pyIn (needle : List Char) : List Char → Bool
  | [] => needle.isEmpty
  | c :: t => needle.isPrefixOf (c :: t) || pyIn needle t

/-- `needle in haystack` on `String`. -/
def pyInS (needle hay : String) : Bool := pyIn needle.data hay.data

def isDigitChar (c : Char) : Bool := ('0' ≤ c && c ≤ '9')

theorem toNat_ofNat_valid {n : Nat} (h : n.isValidChar) :
    (Char.ofNat n).toNat = n := by
  unfold Char.ofNat
  rw [dif_pos h]
  unfold Char.ofNatAux Char.toNat
  simp [UInt32.toNat]

/-- Comparing a digit character with a lower-cased character is the same as
comparing it with the original character (`Char.toLower` moves characters
out of `0..9` never into it). -/
theorem beq_toLower_digit {d c : Char} (hd : isDigitChar d = true) :
    (d == c.toLower) = (d == c) := by
  simp only [isDigitChar, Bool.and_eq_true, decide_eq_true_eq] at hd
  obtain ⟨h0, h9⟩ := hd
  rw [Char.le_def] at h0 h9
  have hd0 : 48 ≤ d.toNat := h0
  have hd9 : d.toNat ≤ 57 := h9
  by_cases hc : c.toNat ≥ 65 ∧ c.toNat ≤ 90
  · have hlow : c.toLower = Char.ofNat (c.toNat + 32) := by
      show (if c.toNat ≥ 65 ∧ c.toNat ≤ 90 then Char.ofNat (c.toNat + 32) else c) = _
      rw [if_pos hc]
    have hval : (c.toNat + 32).isValidChar := by
      constructor
      omega
    have htl : (c.toLower).toNat = c.toNat + 32 := by
      rw [hlow]
      exact toNat_ofNat_valid hval
    have hne1 : d ≠ c.toLower := by
      intro he
      rw [he] at hd9
      omega
    have hne2 : d ≠ c := by
      intro he
      rw [he] at hd9
      omega
    rw [beq_eq_false_iff_ne.mpr hne1, beq_eq_false_iff_ne.mpr hne2]
  · have hlow : c.toLower = c := by
      show (if c.toNat ≥ 65 ∧ c.toNat ≤ 90 then Char.ofNat (c.toNat + 32) else c) = c
      rw [if_neg hc]
    rw [hlow]

theorem isPrefixOf_pyLowerL_digits : ∀ (ds l : List Char),
    ds.all isDigitChar = true →
    ds.isPrefixOf (pyLowerL l) = ds.isPrefixOf l := by
  intro ds
  induction ds with
  | nil => intro l _; cases l <;> rfl
  | cons d ds ih =>
    intro l hall
    simp only [List.all_cons, Bool.and_eq_true] at hall
    cases l with
    | nil => rfl
    | cons c t =>
      show (d :: ds).isPrefixOf (c.toLower :: pyLowerL t) = _
      show (d == c.toLower && ds.isPrefixOf (pyLowerL t)) =
        (d == c && ds.isPrefixOf t)
      rw [beq_toLower_digit hall.1, ih t hall.2]

theorem pyIn_pyLowerL_digits (ds : List Char) (hall : ds.all isDigitChar = true) :
    ∀ l : List Char, pyIn ds (pyLowerL l) = pyIn ds l := by
  intro l
  induction l with
  | nil => rfl
  | cons c t ih =>
    show (ds.isPrefixOf (c.toLower :: pyLowerL t) || pyIn ds (pyLowerL t)) = _
    have h1 : ds.isPrefixOf (c.toLower :: pyLowerL t) = ds.isPrefixOf (c :: t) := by
      have := isPrefixOf_pyLowerL_digits ds (c :: t) hall
      exact this
    rw [h1, ih]
    rfl

/-! ## Font Squirrel: `_parse_weight_style` -/

/-- `_parse_weight_style` of `font-squirrel-translator.py`: style from
italic/oblique substrings of the lower-cased filename, weight from the
first matching keyword band (keyword bands checked on the lower-cased
filename, the numeric triggers on the original filename, exactly as the
source does). -/
def fs_parse_weight_style (filename : String) : Nat × String :=
  let fl := pyLower filename
  let style := if pyInS "italic" fl || pyInS "oblique" fl then "italic" else "normal"
  let weight :=
    if pyInS "thin" fl || pyInS "100" filename then 100
    else if pyInS "extralight" fl || pyInS "ultralight" fl || pyInS "200" filename then 200
    else if pyInS "light" fl || pyInS "300" filename then 300
    else if pyInS "regular" fl || pyInS "normal" fl || pyInS "400" filename then 400
    else if pyInS "medium" fl || pyInS "500" filename then 500
    else if pyInS "semibold" fl || pyInS "demi" fl || pyInS "600" filename then 600
    else if pyInS "bold" fl || pyInS "700" filename then 700
    else if pyInS "extrabold" fl || pyInS "ultrabold" fl || pyInS "800" filename then 800
    else if pyInS "black" fl || pyInS "heavy" fl || pyInS "900" filename then 900
    else 400
  (weight, style)

/-- The fixed priority-ordered keyword bands of the spec. -/
def weightBands : List (Nat × List String) :=
  [(100, ["thin", "100"]), (200, ["extralight", "ultralight", "200"]),
   (300, ["light", "300"]), (400, ["regular", "normal", "400"]),
   (500, ["medium", "500"]), (600, ["semibold", "demi", "600"]),
   (700, ["bold", "700"]), (800, ["extrabold", "ultrabold", "800"]),
   (900, ["black", "heavy", "900"])]

/-- Spec-side weight resolution: the first band, in the fixed priority
order, one of whose keywords occurs case-insensitively (i.e. in the
lower-cased token) as a substring; 400 when none matches. -/
def firstBandWeight (tok : String) : Nat :=
  match weightBands.find? (fun b => b.2.any (fun k => pyInS k (pyLower tok))) with
  | some b => b.1
  | none => 400

theorem fs_weight_eq (t : String) :
    (fs_parse_weight_style t).1 = firstBandWeight t := by
  have e100 : pyIn "100".data (pyLowerL t.data) = pyIn "100".data t.data :=
    pyIn_pyLowerL_digits "100".data (by decide) t.data
  have e200 : pyIn "200".data (pyLowerL t.data) = pyIn "200".data t.data :=
    pyIn_pyLowerL_digits "200".data (by decide) t.data
  have e300 : pyIn "300".data (pyLowerL t.data) = pyIn "300".data t.data :=
    pyIn_pyLowerL_digits "300".data (by decide) t.data
  have e400 : pyIn "400".data (pyLowerL t.data) = pyIn "400".data t.data :=
    pyIn_pyLowerL_digits "400".data (by decide) t.data
  have e500 : pyIn "500".data (pyLowerL t.data) = pyIn "500".data t.data :=
    pyIn_pyLowerL_digits "500".data (by decide) t.data
  have e600 : pyIn "600".data (pyLowerL t.data) = pyIn "600".data t.data :=
    pyIn_pyLowerL_digits "600".data (by decide) t.data
  have e700 : pyIn "700".data (pyLowerL t.data) = pyIn "700".data t.data :=
    pyIn_pyLowerL_digits "700".data (by decide) t.data
  have e800 : pyIn "800".data (pyLowerL t.data) = pyIn "800".data t.data :=
    pyIn_pyLowerL_digits "800".data (by decide) t.data
  have e900 : pyIn "900".data (pyLowerL t.data) = pyIn "900".data t.data :=
    pyIn_pyLowerL_digits "900".data (by decide) t.data
  simp only [fs_parse_weight_style, firstBandWeight, weightBands, pyInS, pyLower]
  simp only [List.find?, List.any, Bool.or_false, Bool.or_assoc,
    e100, e200, e300, e400, e500, e600, e700, e800, e900]
  cases h1 : (pyIn ['t','h','i','n'] (pyLowerL t.data) || pyIn ['1','0','0'] t.data) with
  | true => simp
  | false =>
  cases h2 : (pyIn ['e','x','t','r','a','l','i','g','h','t'] (pyLowerL t.data) ||
      (pyIn ['u','l','t','r','a','l','i','g','h','t'] (pyLowerL t.data) ||
        pyIn ['2','0','0'] t.data)) with
  | true => simp
  | false =>
  cases h3 : (pyIn ['l','i','g','h','t'] (pyLowerL t.data) || pyIn ['3','0','0'] t.data) with
  | true => simp
  | false =>
  cases h4 : (pyIn ['r','e','g','u','l','a','r'] (pyLowerL t.data) ||
      (pyIn ['n','o','r','m','a','l'] (pyLowerL t.data) || pyIn ['4','0','0'] t.data)) with
  | true => simp
  | false =>
  cases h5 : (pyIn ['m','e','d','i','u','m'] (pyLowerL t.data) || pyIn ['5','0','0'] t.data) with
  | true => simp
  | false =>
  cases h6 : (pyIn ['s','e','m','i','b','o','l','d'] (pyLowerL t.data) ||
      (pyIn ['d','e','m','i'] (pyLowerL t.data) || pyIn ['6','0','0'] t.data)) with
  | true => simp
  | false =>
  cases h7 : (pyIn ['b','o','l','d'] (pyLowerL t.data) || pyIn ['7','0','0'] t.data) with
  | true => simp
  | false =>
  cases h8 : (pyIn ['e','x','t','r','a','b','o','l','d'] (pyLowerL t.data) ||
      (pyIn ['u','l','t','r','a','b','o','l','d'] (pyLowerL t.data) ||
        pyIn ['8','0','0'] t.data)) with
  | true => simp
  | false =>
  cases h9 : (pyIn ['b','l','a','c','k'] (pyLowerL t.data) ||
      (pyIn ['h','e','a','v','y'] (pyLowerL t.data) || pyIn ['9','0','0'] t.data)) with
  | true => simp
  | false => simp


/-- **C3.** `_parse_weight_style` returns style "italic" exactly when the
lower-cased token contains "italic" or "oblique" (else "normal"), and
returns the weight of the first matching band in the fixed priority order
(thin/100, extralight/ultralight/200, light/300, regular/normal/400,
medium/500, semibold/demi/600, bold/700, extrabold/ultrabold/800,
black/heavy/900; case-insensitive substring match, numeric substrings
equally valid), defaulting to 400; in particular
"OpenSans-BoldItalic.ttf" yields (700, "italic") and "Font-Regular.ttf"
yields (400, "normal"). -/
theorem fs_parse_weight_style_spec :
    (∀ t : String,
      ((fs_parse_weight_style t).2 = "italic" ↔
        (pyInS "italic" (pyLower t) || pyInS "oblique" (pyLower t)) = true) ∧
      (fs_parse_weight_style t).1 = firstBandWeight t) ∧
    fs_parse_weight_style "OpenSans-BoldItalic.ttf" = (700, "italic") ∧
    fs_parse_weight_style "Font-Regular.ttf" = (400, "normal") := by
  refine ⟨fun t => ⟨?_, fs_weight_eq t⟩, by decide, by decide⟩
  show (if (pyInS "italic" (pyLower t) || pyInS "oblique" (pyLower t)) = true
      then "italic" else "normal") = "italic" ↔ _
  by_cases h : (pyInS "italic" (pyLower t) || pyInS "oblique" (pyLower t)) = true
  · rw [if_pos h]
    simp [h]
  · rw [if_neg h]
    constructor
    · intro hcon
      exact absurd hcon (by decide)
    · intro hcon
      exact absurd hcon h

/-! ## `_normalize_category` (duplicated across all translators) -/

/-- Python's `str.capitalize()`: first character upper-cased, the rest
lower-cased. -/
def pyCapitalize (w : List Char) : List Char :=
  match w with
  | [] => []
  | c :: r => c.toUpper :: pyLowerL r

/-- Python's no-argument `str.split()`: split on whitespace runs, dropping
empty fields.  The accumulator holds the current word reversed. -/
def splitWSAux : List Char → List Char → List (List Char)
  | cur, [] => if cur.isEmpty then [] else [cur.reverse]
  | cur, c :: t =>
    if c.isWhitespace then
      if cur.isEmpty then splitWSAux [] t
      else cur.reverse :: splitWSAux [] t
    else splitWSAux (c :: cur) t

def pySplitWS (l : List Char) : List (List Char) := splitWSAux [] l

/-- `category.replace("-", " ").replace("_", " ")`. -/
def replDashUnderscore (l : List Char) : List Char :=
  l.map (fun c => if c == '-' || c == '_' then ' ' else c)

/-- The title-casing step of `_normalize_category`: replace `-`/`_` with
spaces, split into words, capitalize each, join with single spaces
(the `.strip()` of the source is absorbed by the empty-dropping split). -/
def titleNormalize (s : String) : String :=
  ⟨List.intercalate [' '] ((pySplitWS (replDashUnderscore s.data)).map pyCapitalize)⟩

/-- `not category or not category.strip()`: the string is empty or
whitespace-only. -/
def pyIsBlank (s : String) : Bool := s.data.all Char.isWhitespace

def canonicalCategories : List String :=
  ["Sans Serif", "Serif", "Slab Serif", "Display", "Monospace",
   "Script", "Handwriting", "Decorative", "Symbol", "Blackletter"]

def synonymTable : List (String × String) :=
  [("Typewriter", "Display"), ("Novelty", "Decorative"), ("Comic", "Decorative"),
   ("Dingbat", "Symbol"), ("Handdrawn", "Handwriting"), ("Calligraphic", "Script"),
   ("Cursive", "Script"), ("Programming", "Monospace"), ("Retro", "Decorative"),
   ("Grunge", "Decorative"), ("Pixel", "Decorative"), ("Stencil", "Decorative"),
   ("Monospaced", "Monospace")]

/-- The `category_mapping` dict of `_normalize_category`: the ten core
categories mapping to themselves followed by the re-mappings, in insertion
order (the source's duplicated "Cursive" entry collapses in the dict). -/
def category_mapping : List (String × String) :=
  canonicalCategories.map (fun c => (c, c)) ++ synonymTable

/-- Dict lookup by exact key (`normalized in category_mapping`). -/
def lookupExactAssoc (m : List (String × String)) (n : String) : Option String :=
  (m.find? (fun p => p.1 == n)).map (fun p => p.2)

/-- The case-insensitive scan (`for key, value in category_mapping.items():
if key.lower() == normalized_lower`), first hit in insertion order. -/
def lookupCIAssoc (m : List (String × String)) (n : String) : Option String :=
  (m.find? (fun p => pyLower p.1 == pyLower n)).map (fun p => p.2)

/-- The resolution tail of `_normalize_category`: exact dict hit, else
first case-insensitive hit, else the title-cased input itself. -/
def resolveCategoryCode (n : String) : String :=
  match lookupExactAssoc category_mapping n with
  | some v => v
  | none =>
    match lookupCIAssoc category_mapping n with
    | some v => v
    | none => n

/-- `_normalize_category` of `google-fonts-translator.py` (duplicated
verbatim in the Open Foundry and Nerd Fonts translators and in the
template). -/
def normalize_category (category : String) : String :=
  if pyIsBlank category then "Other"
  else resolveCategoryCode (titleNormalize category)

/-- Spec-side staged resolution: exact match against the canonical set,
then case-insensitive match against it, then the synonym table (exact,
then case-insensitive), else the input passes through unchanged. -/
def resolveCategorySpec (n : String) : String :=
  match canonicalCategories.find? (fun c => c == n) with
  | some c => c
  | none =>
    match canonicalCategories.find? (fun c => pyLower c == pyLower n) with
    | some c => c
    | none =>
      match lookupExactAssoc synonymTable n with
      | some v => v
      | none =>
        match lookupCIAssoc synonymTable n with
        | some v => v
        | none => n

theorem find?_pair_map_exact (l : List String) (n : String) :
    (l.map (fun c => (c, c))).find? (fun q => q.1 == n) =
      (l.find? (fun c => c == n)).map (fun c => (c, c)) := by
  induction l with
  | nil => rfl
  | cons c t ih =>
    cases hp : (c == n) with
    | true => simp [List.find?, hp]
    | false => simp [List.find?, hp, ih]

theorem find?_pair_map_ci (l : List String) (n : String) :
    (l.map (fun c => (c, c))).find? (fun q => pyLower q.1 == pyLower n) =
      (l.find? (fun c => pyLower c == pyLower n)).map (fun c => (c, c)) := by
  induction l with
  | nil => rfl
  | cons c t ih =>
    cases hp : (pyLower c == pyLower n) with
    | true => simp [List.find?, hp]
    | false => simp [List.find?, hp, ih]

/-- No canonical category name coincides, even case-insensitively, with a
synonym-table key. -/
theorem canon_syn_lower_disjoint :
    ∀ c ∈ canonicalCategories, ∀ p ∈ synonymTable, pyLower c ≠ pyLower p.1 := by
  decide

/-- The merged-dict resolution of the source equals the staged resolution
described by the spec, on every string. -/
theorem resolveCategory_eq (n : String) :
    resolveCategoryCode n = resolveCategorySpec n := by
  unfold resolveCategoryCode resolveCategorySpec lookupExactAssoc lookupCIAssoc
    category_mapping
  rw [List.find?_append, List.find?_append, find?_pair_map_exact, find?_pair_map_ci]
  cases hEC : canonicalCategories.find? (fun c => c == n) with
  | some c =>
    have hcn0 := List.find?_some hEC
    have hcn : c = n := beq_iff_eq.mp hcn0
    simp [hEC, hcn]
  | none =>
    cases hES : synonymTable.find? (fun p => p.1 == n) with
    | some pr =>
      have hn_mem : pr ∈ synonymTable := List.mem_of_find?_eq_some hES
      have hn_eq0 := List.find?_some hES
      have hn_eq : pr.1 = n := beq_iff_eq.mp hn_eq0
      have hCC : canonicalCategories.find? (fun c => pyLower c == pyLower n)
          = none := by
        cases hCC2 : canonicalCategories.find? (fun c => pyLower c == pyLower n) with
        | none => rfl
        | some c =>
          have hc_mem := List.mem_of_find?_eq_some hCC2
          have hc_low0 := List.find?_some hCC2
          have hc_low : pyLower c = pyLower n := beq_iff_eq.mp hc_low0
          exact absurd (show pyLower c = pyLower pr.1 by rw [hc_low, hn_eq])
            (canon_syn_lower_disjoint c hc_mem pr hn_mem)
      simp [hEC, hES, hCC]
    | none =>
      cases hCC : canonicalCategories.find? (fun c => pyLower c == pyLower n) with
      | some c => simp [hEC, hES, hCC]
      | none => simp [hEC, hES, hCC]

/-- **C4.** `_normalize_category` returns "Other" on blank input; otherwise
it title-cases (hyphens/underscores to spaces) and resolves by exact
match, case-insensitive match, then the synonym table, and unknown
categories pass through title-cased; it is a total function.  The three
spec examples evaluate as claimed. -/
theorem normalize_category_spec :
    (∀ s : String, pyIsBlank s = true → normalize_category s = "Other") ∧
    (∀ s : String, pyIsBlank s = false →
      normalize_category s = resolveCategorySpec (titleNormalize s)) ∧
    normalize_category "sans-serif" = "Sans Serif" ∧
    normalize_category "Cursive" = "Script" ∧
    normalize_category "Graffiti" = "Graffiti" ∧
    normalize_category "" = "Other" ∧
    normalize_category "   " = "Other" := by
  refine ⟨fun s h => ?_, fun s h => ?_, by decide, by decide, by decide,
    by decide, by decide⟩
  · simp [normalize_category, h]
  · simp only [normalize_category, h]
    simp only [Bool.false_eq_true, if_false]
    exact resolveCategory_eq _

/-- Witness for the conditional parts of `normalize_category_spec`. -/
theorem normalize_category_spec_witness :
    normalize_category " " = "Other" ∧
    normalize_category "serif" = resolveCategorySpec (titleNormalize "serif") :=
  ⟨normalize_category_spec.1 " " (by decide),
   normalize_category_spec.2.1 "serif" (by decide)⟩

/-! ## Canonical data model and run environment -/

/-- A variant record of the FontGet source format. -/
structure Variant where
  name : String
  weight : Int
  style : String
  subsets : List String
  files : List (String × String)
deriving DecidableEq

/-- A font record of the FontGet source format. -/
structure Font where
  name : String
  family : String
  license : String
  license_url : String
  designer : String
  foundry : String
  version : String
  description : String
  categories : List String
  tags : List String
  popularity : Nat
  last_modified : String
  metadata_url : String
  source_url : String
  variants : List Variant
  unicode_ranges : List String
  languages : List String
  sample_text : String
deriving DecidableEq

/-- The `source_info` block of a source document. -/
structure SourceInfo where
  name : String
  description : String
  url : String
  api_endpoint : String
  version : String
  last_updated : String
  total_fonts : Nat
deriving DecidableEq

/-- A whole source document: `source_info` plus the `fonts` dict. -/
structure SourceDoc where
  source_info : SourceInfo
  fonts : List (String × Font)
deriving DecidableEq

/-- The pieces of interpreter/world state a run observes: the current
time (as `datetime.utcnow().isoformat() + "Z"`), the age in days that
`datetime.now() - datetime.fromisoformat(s)` yields for a date string
(`none` models a parse failure), and the iteration order of a Python set
built from a list of strings (hash-seed dependent). -/
structure RunEnv where
  nowIso : String
  daysOld : String → Option Nat
  setOrder : List String → List String

/-- `s.endswith(suffix)`. -/
def strEndsWith (s suffix : String) : Bool := suffix.data.isSuffixOf s.data

/-- Python dict assignment `m[k] = v`: overwrite in place or append. -/
def dictInsert {α : Type} (m : List (String × α)) (k : String) (v : α) :
    List (String × α) :=
  if m.any (fun p => p.1 == k) then
    m.map (fun p => if p.1 == k then (p.1, v) else p)
  else m ++ [(k, v)]

/-! ## Open Foundry translator -/

/-- A row of the Open Foundry `sheet.json` dataset - the fields the
translator reads via `row.get`.  `info_weight` holds the integer value of
`info-weight` when `int(...)` succeeds; absence or an unconvertible value
are both `none` (the source's `except: pass` then falls back to 400).
`font_download_link` is `""` for a missing or non-string value,
`info_style` is the `str(...)` of the field (`""` when absent). -/
structure OfRow where
  font_name : Option String
  info_weight : Option Int
  info_style : String
  font_download_link : String
  info_license : Option String
  info_license_link : Option String
  info_classification : Option String
  font_creator : Option String
  font_foundry : Option String
  info_version : Option String
  info_about : Option String
  font_open_source_link : Option String
  font_found_link : Option String
  settings_text : Option String
deriving DecidableEq

/-- `_weight_from_info` of `open-foundry-translator.py`. -/
def of_weight_from_info (w : Option Int) : Int :=
  match w with
  | some v => if 100 ≤ v ∧ v ≤ 900 then v else 400
  | none => 400

/-- `_style_from_info` of `open-foundry-translator.py`. -/
def of_style_from_info (style : String) : String :=
  if style.data.isEmpty then "normal"
  else if pyInS "italic" (pyLower style) || pyInS "oblique" (pyLower style) then
    "italic"
  else "normal"

/-- The shared `weight_names` lookup (`{100: "Thin", ..., 900: "Black"}`
with `str(weight)` for unknown weights). -/
def weight_names (w : Int) : String :=
  if w = 100 then "Thin" else if w = 200 then "Extra Light"
  else if w = 300 then "Light" else if w = 400 then "Regular"
  else if w = 500 then "Medium" else if w = 600 then "Semi Bold"
  else if w = 700 then "Bold" else if w = 800 then "Extra Bold"
  else if w = 900 then "Black" else toString w

/-- The files-mapping computation of `_build_variant`: direct `.ttf`/`.otf`
links keyed by their extension, archives keyed `zip`/`tar.gz`/`tar.xz`,
anything else yields no file. -/
def of_variant_files (row : OfRow) : List (String × String) :=
  let dl := row.font_download_link
  if dl.data.isEmpty then []
  else if strEndsWith dl ".ttf" then [("ttf", dl)]
  else if strEndsWith dl ".otf" then [("otf", dl)]
  else if strEndsWith dl ".tar.gz" then [("tar.gz", dl)]
  else if strEndsWith dl ".tar.xz" then [("tar.xz", dl)]
  else if strEndsWith dl ".zip" then [("zip", dl)]
  else []

/-- `_build_variant` of `open-foundry-translator.py`: returns `none`
exactly when the files mapping comes out empty. -/
def of_build_variant (family : String) (row : OfRow) : Option Variant :=
  let weight := of_weight_from_info row.info_weight
  let style := of_style_from_info row.info_style
  let name0 := family ++ " " ++ weight_names weight
  let name := if style == "italic" then name0 ++ " Italic" else name0
  let files := of_variant_files row
  if files.isEmpty then none
  else some { name := name, weight := weight, style := style,
              subsets := ["latin"], files := files }

/-- Lexicographic comparison of characters lists. -/
def charListLe : List Char → List Char → Bool
  | [], _ => true
  | _ :: _, [] => false
  | a :: as, b :: bs => if a < b then true else if b < a then false else charListLe as bs

/-- Lexicographic comparison of `(format, url)` pairs, as Python's tuple
order on `dict.items()`. -/
def pairLeB (x y : String × String) : Bool :=
  if x.1 == y.1 then charListLe x.2.data y.2.data else charListLe x.1.data y.1.data

/-- The dedup key of the `translate` loop:
`(variant["weight"], variant["style"], tuple(sorted(variant["files"].items())))`. -/
def variantKey (v : Variant) : Int × String × List (String × String) :=
  (v.weight, v.style, v.files.mergeSort pairLeB)

/-- The per-family variant loop of `translate`, carrying the `seen` set of
dedup keys. -/
def of_variants_loop (family : String)
    (seen : List (Int × String × List (String × String))) :
    List OfRow → List Variant
  | [] => []
  | r :: rest =>
    match of_build_variant family r with
    | none => of_variants_loop family seen rest
    | some v =>
      if variantKey v ∈ seen then of_variants_loop family seen rest
      else v :: of_variants_loop family (variantKey v :: seen) rest

/-- `families.setdefault(family, []).append(row)`: insertion-ordered
grouping of the fetched rows by `font-name`; rows with a missing or empty
name are skipped. -/
def of_group_rows (rows : List OfRow) : List (String × List OfRow) :=
  rows.foldl (fun m r =>
    match r.font_name with
    | none => m
    | some fam =>
      if fam.data.isEmpty then m
      else if m.any (fun p => p.1 == fam) then
        m.map (fun p => if p.1 == fam then (p.1, p.2 ++ [r]) else p)
      else m ++ [(fam, [r])]) []

/-- An all-absent row, used as the (unreachable) default for `items[0]`
lookups on the nonempty per-family row lists. -/
def ofDefaultRow : OfRow :=
  { font_name := none, info_weight := none, info_style := "",
    font_download_link := "", info_license := none, info_license_link := none,
    info_classification := none, font_creator := none, font_foundry := none,
    info_version := none, info_about := none, font_open_source_link := none,
    font_found_link := none, settings_text := none }

/-- The font record `translate` builds for one family. -/
def of_font_record (env : RunEnv) (family : String) (items : List OfRow)
    (variants : List Variant) : Font :=
  let fst := items.head?.getD ofDefaultRow
  { name := family
    family := family
    license := fst.info_license.getD "Other"
    license_url := fst.info_license_link.getD ""
    designer := fst.font_creator.getD ""
    foundry := fst.font_foundry.getD ""
    version := fst.info_version.getD ""
    description := fst.info_about.getD ""
    categories :=
      match fst.info_classification with
      | some cl => if cl.data.isEmpty then [] else [normalize_category cl]
      | none => []
    tags := []
    popularity := 0
    last_modified := env.nowIso
    metadata_url := fst.font_open_source_link.getD ""
    source_url := (fst.font_found_link.orElse (fun _ => fst.font_open_source_link)).getD ""
    variants := variants
    unicode_ranges := []
    languages := []
    sample_text := fst.settings_text.getD "The quick brown fox jumps over the lazy dog" }

/-- The fonts-dict construction of `translate`: families with no usable
variant are skipped, ids are `_clean_id` of the family name. -/
def of_build_fonts (env : RunEnv) (groups : List (String × List OfRow)) :
    List (String × Font) :=
  groups.foldl (fun fonts g =>
    let variants := of_variants_loop g.1 [] g.2
    if variants.isEmpty then fonts
    else dictInsert fonts (clean_id g.1) (of_font_record env g.1 g.2 variants)) []

/-- `translate` of `open-foundry-translator.py` on already-fetched rows. -/
def of_translate (env : RunEnv) (rows : List OfRow) : SourceDoc :=
  let fonts := of_build_fonts env (of_group_rows rows)
  { source_info :=
      { name := "Open Foundry"
        description := "Curated open-source fonts from Open Foundry"
        url := "https://open-foundry.com"
        api_endpoint := "https://open-foundry.com/data/sheet.json"
        version := "1.0"
        last_updated := env.nowIso
        total_fonts := fonts.length }
    fonts := fonts }

/-! ## C7: first-wins deduplication of variants -/

/-- Spec-side first-wins deduplication: keep each variant whose dedup key
has not appeared earlier in the list. -/
def firstWinsBy : List Variant → List Variant
  | [] => []
  | v :: rest =>
    v :: firstWinsBy (rest.filter (fun w => !(variantKey w == variantKey v)))
termination_by l => l.length
decreasing_by
  simp only [List.length_cons]
  exact Nat.lt_succ_of_le (List.length_filter_le _ _)

/-- The seen-set dedup pass, over an already-built variant list. -/
def dedupSeen (seen : List (Int × String × List (String × String))) :
    List Variant → List Variant
  | [] => []
  | v :: rest =>
    if variantKey v ∈ seen then dedupSeen seen rest
    else v :: dedupSeen (variantKey v :: seen) rest

theorem of_variants_loop_eq_dedupSeen (family : String) :
    ∀ (rows : List OfRow) (seen : List (Int × String × List (String × String))),
      of_variants_loop family seen rows =
        dedupSeen seen (rows.filterMap (of_build_variant family)) := by
  intro rows
  induction rows with
  | nil => intro seen; rfl
  | cons r rest ih =>
    intro seen
    rw [List.filterMap_cons]
    cases hb : of_build_variant family r with
    | none => simp only [of_variants_loop, hb, ih]
    | some v => simp only [of_variants_loop, hb, ih, dedupSeen]

theorem dedupSeen_congr (s1 s2 : List (Int × String × List (String × String)))
    (h : ∀ x, x ∈ s1 ↔ x ∈ s2) :
    ∀ l : List Variant, dedupSeen s1 l = dedupSeen s2 l := by
  intro l
  induction l generalizing s1 s2 with
  | nil => rfl
  | cons v rest ih =>
    simp only [dedupSeen]
    by_cases hm : variantKey v ∈ s1
    · rw [if_pos hm, if_pos ((h _).mp hm)]
      exact ih s1 s2 h
    · rw [if_neg hm, if_neg (fun hc => hm ((h _).mpr hc))]
      have hcons : ∀ x, x ∈ variantKey v :: s1 ↔ x ∈ variantKey v :: s2 := by
        intro x
        simp only [List.mem_cons]
        exact or_congr Iff.rfl (h x)
      rw [ih _ _ hcons]

theorem dedupSeen_cons_key (k : Int × String × List (String × String)) :
    ∀ (l : List Variant) (seen : List (Int × String × List (String × String))),
      dedupSeen (k :: seen) l =
        dedupSeen seen (l.filter (fun w => !(variantKey w == k))) := by
  intro l
  induction l with
  | nil => intro seen; rfl
  | cons v rest ih =>
    intro seen
    by_cases hk : variantKey v = k
    · have hkb : (variantKey v == k) = true := beq_iff_eq.mpr hk
      have hfil : (v :: rest).filter (fun w => !(variantKey w == k)) =
          rest.filter (fun w => !(variantKey w == k)) := by
        simp [List.filter, hkb]
      rw [hfil]
      simp only [dedupSeen, List.mem_cons]
      rw [if_pos (Or.inl hk)]
      exact ih seen
    · have hkb : (variantKey v == k) = false := beq_eq_false_iff_ne.mpr hk
      have hfil : (v :: rest).filter (fun w => !(variantKey w == k)) =
          v :: rest.filter (fun w => !(variantKey w == k)) := by
        simp [List.filter, hkb]
      rw [hfil]
      simp only [dedupSeen, List.mem_cons]
      by_cases hm : variantKey v ∈ seen
      · rw [if_pos (Or.inr hm), if_pos hm]
        exact ih seen
      · rw [if_neg (by rintro (hc | hc) <;> exact absurd hc (by assumption)),
          if_neg hm]
        have hswap : dedupSeen (variantKey v :: k :: seen) rest
            = dedupSeen (k :: variantKey v :: seen) rest := by
          apply dedupSeen_congr
          intro x
          simp only [List.mem_cons]
          tauto
        rw [hswap, ih (variantKey v :: seen)]

theorem dedupSeen_nil_firstWins :
    ∀ (n : Nat) (l : List Variant), l.length ≤ n →
      dedupSeen [] l = firstWinsBy l := by
  intro n
  induction n with
  | zero =>
    intro l hl
    cases l with
    | nil => simp only [dedupSeen, firstWinsBy]
    | cons v rest => simp at hl
  | succ n ih =>
    intro l hl
    cases l with
    | nil => simp only [dedupSeen, firstWinsBy]
    | cons v rest =>
      have hstep : dedupSeen [] (v :: rest)
          = v :: dedupSeen [variantKey v] rest := by
        simp [dedupSeen]
      rw [hstep, dedupSeen_cons_key, firstWinsBy]
      have hl2 : rest.length ≤ n := by
        simp only [List.length_cons] at hl
        omega
      rw [ih _ (le_trans (List.length_filter_le _ _) hl2)]

/-- **C7.** The variant loop of the Open Foundry translator keeps, for
each (weight, style, sorted file-set) dedup key, exactly the variant built
from the first row that produced that key: it equals the first-wins
deduplication of the built variant list. -/
theorem of_variants_first_wins (family : String) (rows : List OfRow) :
    of_variants_loop family [] rows =
      firstWinsBy (rows.filterMap (of_build_variant family)) := by
  rw [of_variants_loop_eq_dedupSeen]
  exact dedupSeen_nil_firstWins _ _ (Nat.le_refl _)

/-- **C1 (amended).** The Open Foundry `_build_variant` returns `none`
exactly when the files mapping is empty (so variants produced = rows with
a non-empty files mapping); a produced variant always carries at least one
file.  (The Google Fonts `_parse_variant`, by contrast, does not satisfy
this - see the counterexample.) -/
theorem of_build_variant_empty_files :
    (∀ (family : String) (row : OfRow) (v : Variant),
      of_build_variant family row = some v → v.files ≠ []) ∧
    (∀ (family : String) (row : OfRow),
      of_build_variant family row = none ↔ of_variant_files row = []) ∧
    (∀ (family : String) (rows : List OfRow),
      (rows.filterMap (of_build_variant family)).length =
        (rows.filter (fun r => !(of_variant_files r).isEmpty)).length) := by
  have hnone : ∀ (family : String) (row : OfRow),
      of_build_variant family row = none ↔ of_variant_files row = [] := by
    intro family row
    unfold of_build_variant
    cases hf : of_variant_files row with
    | nil => simp
    | cons p t => simp
  refine ⟨?_, hnone, ?_⟩
  · intro family row v hv
    unfold of_build_variant at hv
    cases hf : of_variant_files row with
    | nil => rw [hf] at hv; simp at hv
    | cons p t =>
      rw [hf] at hv
      simp only [List.isEmpty_cons, Bool.false_eq_true, if_false] at hv
      have := (Option.some_inj.mp hv).symm
      rw [this]
      simp
  · intro family rows
    induction rows with
    | nil => rfl
    | cons r rest ih =>
      rw [List.filterMap_cons]
      cases hb : of_build_variant family r with
      | none =>
        have hf : of_variant_files r = [] := (hnone family r).mp hb
        have : (!(of_variant_files r).isEmpty) = false := by rw [hf]; rfl
        simp [List.filter, this, ih]
      | some v =>
        have hf : of_variant_files r ≠ [] := by
          intro hc
          rw [(hnone family r).mpr hc] at hb
          exact Option.noConfusion hb
        have : (!(of_variant_files r).isEmpty) = true := by
          cases hff : of_variant_files r with
          | nil => exact absurd hff hf
          | cons p t => rfl
        simp [List.filter, this, ih]

/-- A concrete Open Foundry row carrying a direct `.ttf` download link. -/
def ofRowTtf : OfRow :=
  { ofDefaultRow with
    font_name := some "Alpha",
    info_weight := some 700,
    info_style := "Italic",
    font_download_link := "https://cdn.example/alpha-bold.ttf" }

/-- The variant the Open Foundry builder produces for `ofRowTtf`. -/
def ofVariantTtf : Variant :=
  { name := "Alpha Bold Italic", weight := 700, style := "italic",
    subsets := ["latin"],
    files := [("ttf", "https://cdn.example/alpha-bold.ttf")] }

/-- Witness for `of_build_variant_empty_files`: on a concrete row with a
`.ttf` link the builder succeeds and the variant has a file. -/
theorem of_build_variant_empty_files_witness :
    of_build_variant "Alpha" ofRowTtf = some ofVariantTtf ∧
      ofVariantTtf.files ≠ [] :=
  ⟨by decide, of_build_variant_empty_files.1 "Alpha" ofRowTtf _ (by decide)⟩

/-! ## Google Fonts translator -/

/-- `s.replace(a, b)` for single characters. -/
def pyReplaceChar (a b : Char) (s : String) : String :=
  ⟨s.data.map (fun c => if c == a then b else c)⟩

/-- `s.replace(a, "")` for a single character. -/
def pyRemoveChar (a : Char) (s : String) : String :=
  ⟨s.data.filter (fun c => !(c == a))⟩

/-- `s.isdigit()` (restricted to ASCII digits). -/
def pyIsDigit (s : String) : Bool :=
  !s.data.isEmpty && s.data.all isDigitChar

/-- Value of a digit string. -/
def digitsToNat (l : List Char) : Nat :=
  l.foldl (fun n c => n * 10 + (c.toNat - 48)) 0

/-- Truthiness of an optional string (`None` and `""` are falsy). -/
def optTruthy (o : Option String) : Bool :=
  match o with
  | some s => !s.data.isEmpty
  | none => false

/-- A Google Fonts API item - the fields `transform_font` reads.
`family = none` models a missing key (the subscript access raises
KeyError); `files` is the variant-keyed download-URL dict. -/
structure GfItem where
  family : Option String
  variants : List String
  category : Option String
  designer : Option String
  version : Option String
  description : Option String
  lastModified : Option String
  subsets : List String
  files : List (String × String)
deriving DecidableEq

/-- `_generate_file_urls`: the download URL for the variant keyed by its
extension (defaulting to `ttf`); empty when the files dict has no entry
for the variant. -/
def gf_generate_file_urls (item : GfItem) (variant : String) :
    List (String × String) :=
  match item.files.find? (fun p => p.1 == variant) with
  | none => []
  | some p =>
    if strEndsWith p.2 ".ttf" then [("ttf", p.2)]
    else if strEndsWith p.2 ".otf" then [("otf", p.2)]
    else [("ttf", p.2)]

/-- `_parse_variant` of `google-fonts-translator.py`.  `error` models the
ValueError `int(...)` raises on a malformed `...italic` variant (int
success is modelled as the prefix being all digits), `ok none` is the
skip of unsupported variants; note that a recognised variant absent from
the `files` dict is emitted WITH AN EMPTY files mapping. -/
def gf_parse_variant (variant family : String) (item : GfItem) :
    Except String (Option Variant) :=
  if variant == "regular" then
    .ok (some { name := family ++ " Regular"
                weight := 400
                style := "normal"
                subsets := ["latin", "latin-ext"]
                files := gf_generate_file_urls item variant })
  else if variant == "italic" then
    .ok (some { name := family ++ " Italic"
                weight := 400
                style := "italic"
                subsets := ["latin", "latin-ext"]
                files := gf_generate_file_urls item variant })
  else if pyIsDigit variant then
    .ok (some { name := family ++ " " ++ weight_names (digitsToNat variant.data)
                weight := digitsToNat variant.data
                style := "normal"
                subsets := ["latin", "latin-ext"]
                files := gf_generate_file_urls item variant })
  else if strEndsWith variant "italic" then
    if pyIsDigit ⟨variant.data.take (variant.data.length - 6)⟩ then
      .ok (some { name := family ++ " " ++
                    weight_names (digitsToNat (variant.data.take (variant.data.length - 6))) ++
                    " Italic"
                  weight := digitsToNat (variant.data.take (variant.data.length - 6))
                  style := "italic"
                  subsets := ["latin", "latin-ext"]
                  files := gf_generate_file_urls item variant })
    else .error "ValueError: invalid literal for int()"
  else .ok none

/-- `_calculate_popularity` of the Google Fonts translator (pure in the
item). -/
def gf_calculate_popularity (item : GfItem) : Nat :=
  min
    (min (item.variants.length * 10) 50 + min (item.subsets.length * 5) 30 +
      (if optTruthy item.description then 10 else 0) +
      (if optTruthy item.designer then 10 else 0))
    100

/-- `_extract_tags` of the Google Fonts translator: category slug plus
`italic`/`bold` flags derived from the variants (list built in a fixed
order - no set involved here). -/
def gf_extract_tags (item : GfItem) : List String :=
  (match item.category with
   | some c => [pyReplaceChar ' ' '-' (pyLower c)]
   | none => []) ++
  (if item.variants.any (fun v => pyInS "italic" v) then ["italic"] else []) ++
  (if item.variants.any
      (fun v => pyIsDigit v && decide (700 ≤ digitsToNat v.data)) then
    ["bold"] else [])

/-- `_extract_unicode_ranges`. -/
def gf_extract_unicode_ranges (item : GfItem) : List String :=
  (if item.subsets.contains "latin" then ["U+0000-00FF"] else []) ++
  (if item.subsets.contains "latin-ext" then ["U+0100-017F"] else []) ++
  (if item.subsets.contains "cyrillic" then ["U+0400-04FF"] else []) ++
  (if item.subsets.contains "greek" then ["U+0370-03FF"] else [])

/-- The fixed `subset_languages` table. -/
def subset_languages : List (String × String) :=
  [("latin", "Latin"), ("latin-ext", "Latin Extended"),
   ("cyrillic", "Cyrillic"), ("cyrillic-ext", "Cyrillic Extended"),
   ("greek", "Greek"), ("greek-ext", "Greek Extended"),
   ("vietnamese", "Vietnamese"), ("arabic", "Arabic"),
   ("devanagari", "Devanagari"), ("hebrew", "Hebrew"), ("thai", "Thai"),
   ("chinese-simplified", "Chinese Simplified"),
   ("chinese-traditional", "Chinese Traditional"),
   ("japanese", "Japanese"), ("korean", "Korean")]

/-- `_extract_languages`. -/
def gf_extract_languages (item : GfItem) : List String :=
  item.subsets.filterMap
    (fun s => (subset_languages.find? (fun p => p.1 == s)).map (fun p => p.2))

/-- The variant loop of `transform_font`: parse each variant string in
order, keep the non-`None` results, propagate the first exception. -/
def gf_collect_variants (family : String) (item : GfItem) :
    List String → Except String (List Variant)
  | [] => .ok []
  | v :: rest =>
    match gf_parse_variant v family item with
    | .error e => .error e
    | .ok vd =>
      match gf_collect_variants family item rest with
      | .error e => .error e
      | .ok others =>
        match vd with
        | some d => .ok (d :: others)
        | none => .ok others

/-- The record `transform_font` builds once the variants are collected. -/
def gf_font_of (family : String) (item : GfItem) (variants : List Variant) :
    Font :=
  {
        name := family
        family := family
        license := "OFL"
        license_url := "https://fonts.google.com/specimen/" ++
          (pyReplaceChar ' ' '+' family).data.asString ++ "/license"
        designer := item.designer.getD ""
        foundry := "Google"
        version := item.version.getD "1.0"
        description := item.description.getD ""
        categories :=
          match item.category with
          | some c => [normalize_category c]
          | none => []
        tags := gf_extract_tags item
        popularity := gf_calculate_popularity item
        last_modified := item.lastModified.getD ""
        metadata_url := "https://raw.githubusercontent.com/google/fonts/main/ofl/" ++
          (pyRemoveChar ' ' (pyLower family)).data.asString ++ "/METADATA.pb"
        source_url := "https://fonts.google.com/specimen/" ++
          (pyReplaceChar ' ' '+' family).data.asString
        variants := variants
        unicode_ranges := gf_extract_unicode_ranges item
        languages := gf_extract_languages item
        sample_text := "The quick brown fox jumps over the lazy dog" }

/-- `transform_font` of `google-fonts-translator.py`: raises (KeyError)
when `family` is absent, propagates variant-parsing errors, otherwise
builds the record. -/
def gf_transform_font (item : GfItem) : Except String Font :=
  match item.family with
  | none => .error "KeyError: family"
  | some family =>
    match gf_collect_variants family item item.variants with
    | .error e => .error e
    | .ok variants => .ok (gf_font_of family item variants)

/-- The body of the per-item `try` block of `translate`: transform, then
derive the id by slugifying `font_data['family']`. -/
def gf_item_entry (it : GfItem) : Except String (String × Font) :=
  match gf_transform_font it with
  | .error e => .error e
  | .ok f =>
    match it.family with
    | none => .error "KeyError: family"
    | some fam => .ok (clean_id fam, f)

/-- The warning line `translate` prints for a failing item. -/
def gf_warn_msg (it : GfItem) (e : String) : String :=
  "Warning: Failed to transform font " ++ (it.family.getD "unknown") ++ ": " ++ e

/-- The per-item loop of `translate`: insert on success, log a warning and
continue on failure. -/
def gf_process_aux (fonts : List (String × Font)) (warns : List String) :
    List GfItem → List (String × Font) × List String
  | [] => (fonts, warns)
  | it :: rest =>
    match gf_item_entry it with
    | .ok kf => gf_process_aux (dictInsert fonts kf.1 kf.2) warns rest
    | .error e => gf_process_aux fonts (warns ++ [gf_warn_msg it e]) rest

def gf_process (items : List GfItem) : List (String × Font) × List String :=
  gf_process_aux [] [] items

/-- `translate` of `google-fonts-translator.py` on already-fetched items. -/
def gf_translate (env : RunEnv) (items : List GfItem) : SourceDoc :=
  { source_info :=
      { name := "Google Fonts"
        description := "Open source fonts from Google"
        url := "https://fonts.google.com"
        api_endpoint := "https://www.googleapis.com/webfonts/v1/webfonts"
        version := "1.0"
        last_updated := env.nowIso
        total_fonts := (gf_process items).1.length }
    fonts := (gf_process items).1 }

/-- Does the per-item body succeed for this item? -/
def gf_entry_ok (it : GfItem) : Bool :=
  match gf_item_entry it with
  | .ok _ => true
  | .error _ => false

/-- The warning the loop logs for this item (none when it succeeds). -/
def gf_warn_of (it : GfItem) : Option String :=
  match gf_item_entry it with
  | .ok _ => none
  | .error e => some (gf_warn_msg it e)

theorem gf_process_aux_fonts_warns_indep :
    ∀ (items : List GfItem) (fonts : List (String × Font)) (w1 w2 : List String),
      (gf_process_aux fonts w1 items).1 = (gf_process_aux fonts w2 items).1 := by
  intro items
  induction items with
  | nil => intro fonts w1 w2; rfl
  | cons it rest ih =>
    intro fonts w1 w2
    cases he : gf_item_entry it with
    | ok kf =>
      simp only [gf_process_aux, he]
      exact ih _ _ _
    | error e =>
      simp only [gf_process_aux, he]
      exact ih _ _ _

theorem gf_process_aux_fonts_filter :
    ∀ (items : List GfItem) (fonts : List (String × Font)) (w : List String),
      (gf_process_aux fonts w items).1 =
        (gf_process_aux fonts w (items.filter gf_entry_ok)).1 := by
  intro items
  induction items with
  | nil => intro fonts w; rfl
  | cons it rest ih =>
    intro fonts w
    cases he : gf_item_entry it with
    | ok kf =>
      have hok : gf_entry_ok it = true := by simp [gf_entry_ok, he]
      have hfil : (it :: rest).filter gf_entry_ok =
          it :: rest.filter gf_entry_ok := by
        simp [List.filter, hok]
      rw [hfil]
      simp only [gf_process_aux, he]
      exact ih _ _
    | error e =>
      have hok : gf_entry_ok it = false := by simp [gf_entry_ok, he]
      have hfil : (it :: rest).filter gf_entry_ok = rest.filter gf_entry_ok := by
        simp [List.filter, hok]
      rw [hfil]
      simp only [gf_process_aux, he]
      calc (gf_process_aux fonts (w ++ [gf_warn_msg it e]) rest).1
          = (gf_process_aux fonts (w ++ [gf_warn_msg it e])
              (rest.filter gf_entry_ok)).1 := ih _ _
        _ = (gf_process_aux fonts w (rest.filter gf_entry_ok)).1 :=
            gf_process_aux_fonts_warns_indep _ _ _ _

theorem gf_process_aux_warns :
    ∀ (items : List GfItem) (fonts : List (String × Font)) (w : List String),
      (gf_process_aux fonts w items).2 = w ++ items.filterMap gf_warn_of := by
  intro items
  induction items with
  | nil => intro fonts w; simp [gf_process_aux]
  | cons it rest ih =>
    intro fonts w
    cases he : gf_item_entry it with
    | ok kf =>
      simp only [gf_process_aux, he, List.filterMap_cons, gf_warn_of]
      rw [ih]
    | error e =>
      simp only [gf_process_aux, he, List.filterMap_cons, gf_warn_of]
      rw [ih, List.append_assoc]
      rfl

/-- **C5 (amended).** In the Google Fonts translator (and likewise Font
Squirrel) the per-item loop catches a transform failure, logs exactly one
warning naming the offending item, skips it, and continues: the fonts
dict is unaffected by failing items and the warnings are exactly one line
per failing item, in input order.  (In the Nerd Fonts and Open Foundry
translators there is NO per-item handler - see the counterexample.) -/
theorem gf_per_item_errors_skipped :
    (∀ items : List GfItem,
      (gf_process items).1 = (gf_process (items.filter gf_entry_ok)).1) ∧
    (∀ items : List GfItem,
      (gf_process items).2 = items.filterMap gf_warn_of) := by
  constructor
  · intro items
    exact gf_process_aux_fonts_filter items [] []
  · intro items
    have := gf_process_aux_warns items [] []
    simpa using this

/-- A Google Fonts item whose `files` dict lacks its "regular" variant. -/
def gfItemNoFiles : GfItem :=
  { family := some "Test"
    variants := ["regular"]
    category := none
    designer := none
    version := none
    description := none
    lastModified := none
    subsets := []
    files := [] }

/-- **C1 (counterexample).** The Google Fonts `_parse_variant`, on the
supported variant "regular" of an item whose files dict has no entry for
it, emits a variant whose files mapping is EMPTY, instead of returning
none: the claim fails for this translator. -/
theorem gf_parse_variant_empty_files_emitted :
    gf_parse_variant "regular" "Test" gfItemNoFiles =
      .ok (some { name := "Test Regular"
                  weight := 400
                  style := "normal"
                  subsets := ["latin", "latin-ext"]
                  files := [] }) := rfl

/-! ## Nerd Fonts translator -/

/-- Python's substring `str.replace(pat, rep)` (all occurrences, left to
right, non-overlapping); `pat` is assumed non-empty, as at all use sites. -/
def pyReplaceStrL (pat rep : List Char) : Nat → List Char → List Char
  | 0, _ => []
  | _, [] => []
  | fuel + 1, c :: t =>
    if pat.isPrefixOf (c :: t) then
      rep ++ pyReplaceStrL pat rep fuel (List.drop pat.length (c :: t))
    else c :: pyReplaceStrL pat rep fuel t

def pyReplaceStr (pat rep s : String) : String :=
  ⟨pyReplaceStrL pat.data rep.data s.data.length s.data⟩

/-- `re.sub(pattern, "", s)` driven by a head matcher that returns the
remaining input after a (non-empty) match. -/
def reSubAux (matchAt : List Char → Option (List Char)) :
    Nat → List Char → List Char
  | 0, _ => []
  | _, [] => []
  | fuel + 1, c :: t =>
    match matchAt (c :: t) with
    | some rest => reSubAux matchAt fuel rest
    | none => c :: reSubAux matchAt fuel t

def reSub (matchAt : List Char → Option (List Char)) (l : List Char) : List Char :=
  reSubAux matchAt l.length l

/-- Head matcher for `[Nn]erd[Ff]ont[s]?`. -/
def matchNerdFont1 : List Char → Option (List Char)
  | n :: 'e' :: 'r' :: 'd' :: f :: 'o' :: 'n' :: 't' :: rest =>
    if (n == 'N' || n == 'n') && (f == 'F' || f == 'f') then
      some (match rest with
            | 's' :: rest2 => rest2
            | _ => rest)
    else none
  | _ => none

/-- Head matcher for `[Nn]erd\s*[Ff]ont[s]?`. -/
def matchNerdFont2 : List Char → Option (List Char)
  | n :: 'e' :: 'r' :: 'd' :: rest =>
    if n == 'N' || n == 'n' then
      match rest.dropWhile Char.isWhitespace with
      | f :: 'o' :: 'n' :: 't' :: rest3 =>
        if f == 'F' || f == 'f' then
          some (match rest3 with
                | 's' :: rest4 => rest4
                | _ => rest3)
        else none
      | _ => none
    else none
  | _ => none

/-- Head matcher for the version pattern `v?\d+\.\d+\.?\d*`. -/
def matchVersionCore (s : List Char) : Option (List Char) :=
  if (s.takeWhile isDigitChar).isEmpty then none
  else
    match s.dropWhile isDigitChar with
    | '.' :: s2 =>
      if (s2.takeWhile isDigitChar).isEmpty then none
      else
        match s2.dropWhile isDigitChar with
        | '.' :: s4 => some (s4.dropWhile isDigitChar)
        | s3 => some s3
    | _ => none

def matchVersion (l : List Char) : Option (List Char) :=
  match l with
  | 'v' :: t =>
    (match matchVersionCore t with
     | some r => some r
     | none => matchVersionCore l)
  | _ => matchVersionCore l

/-- `str.strip()` (whitespace, both ends). -/
def pyStripWS (l : List Char) : List Char :=
  ((l.dropWhile Char.isWhitespace).reverse.dropWhile Char.isWhitespace).reverse

/-- Python's `str.title()`: upper-case a letter after a non-letter,
lower-case a letter after a letter. -/
def pyTitleAux : Bool → List Char → List Char
  | _, [] => []
  | prevAlpha, c :: t =>
    if c.isAlpha then
      (if prevAlpha then c.toLower else c.toUpper) :: pyTitleAux true t
    else c :: pyTitleAux false t

/-- The `font_patterns` table of `nerd-fonts-translator.py`. -/
def nf_font_patterns : List (String × String) :=
  [("FiraCode", "Fira Code"), ("JetBrainsMono", "JetBrains Mono"),
   ("CascadiaCode", "Cascadia Code"), ("SourceCodePro", "Source Code Pro"),
   ("Hack", "Hack"), ("RobotoMono", "Roboto Mono"),
   ("UbuntuMono", "Ubuntu Mono"), ("DejaVuSansMono", "DejaVu Sans Mono"),
   ("DroidSansMono", "Droid Sans Mono"), ("Mononoki", "Mononoki"),
   ("Noto", "Noto Sans Mono"), ("SpaceMono", "Space Mono"),
   ("Terminus", "Terminus"), ("VictorMono", "Victor Mono"),
   ("Meslo", "Meslo"), ("Lilex", "Lilex"), ("Iosevka", "Iosevka"),
   ("Agave", "Agave"), ("Arimo", "Arimo"),
   ("AurulentSansMono", "Aurulent Sans Mono"),
   ("BigBlueTerminal", "Big Blue Terminal"),
   ("BitstreamVeraSansMono", "Bitstream Vera Sans Mono"),
   ("BlexMono", "Blex Mono"), ("CodeNewRoman", "Code New Roman"),
   ("ComicShannsMono", "Comic Shanns Mono"), ("Cousine", "Cousine"),
   ("DaddyTimeMono", "DaddyTime Mono"),
   ("FantasqueSansMono", "Fantasque Sans Mono"), ("GoMono", "Go Mono"),
   ("Gohu", "Gohu"), ("HeavyData", "Heavy Data"), ("Hermit", "Hermit"),
   ("iA-Writer", "iA Writer Mono"), ("IBMPlexMono", "IBM Plex Mono"),
   ("Inconsolata", "Inconsolata"), ("InconsolataGo", "Inconsolata Go"),
   ("InconsolataLGC", "Inconsolata LGC"), ("IntelOneMono", "Intel One Mono"),
   ("Lekton", "Lekton"), ("LiberationMono", "Liberation Mono"),
   ("LuxiMono", "Luxi Mono"), ("MPlus", "M+"), ("Overpass", "Overpass Mono"),
   ("ProFont", "ProFont"), ("ProggyClean", "ProggyClean"),
   ("PTMono", "PT Mono"), ("Raleway", "Raleway"),
   ("SauceCodePro", "Sauce Code Pro"), ("ShureTechMono", "Shure Tech Mono"),
   ("Tinos", "Tinos"), ("Tight", "Tight"), ("TlwgMono", "Tlwg Mono"),
   ("TwilioSansMono", "Twilio Sans Mono"), ("VazirCode", "Vazir Code"),
   ("YaHeiConsolasHybrid", "YaHei Consolas Hybrid")]

/-- `_extract_font_name` of `nerd-fonts-translator.py`: strip archive
suffixes, try the known-pattern table (case-insensitive substring, first
hit in insertion order), else remove NerdFont markers and version numbers,
turn `_`/`-` into spaces, strip, and title-case; `none` when nothing
remains. -/
def nf_extract_font_name (filename : String) : Option String :=
  let name := pyReplaceStr ".tar.xz" "" (pyReplaceStr ".zip" "" filename)
  match (nf_font_patterns.find?
      (fun p => pyInS (pyLower p.1) (pyLower name))).map (fun p => p.2) with
  | some display => some display
  | none =>
    let n1 := reSub matchNerdFont1 name.data
    let n2 := reSub matchNerdFont2 n1
    let n3 := reSub matchVersion n2
    let n4 := pyStripWS (n3.map (fun c =>
      if c == '_' then ' ' else if c == '-' then ' ' else c))
    if n4.isEmpty then none else some ⟨pyTitleAux false n4⟩

/-- `_create_variant` of `nerd-fonts-translator.py`: always yields a
variant (Bold when the filename mentions Bold, else Regular), with the
asset download URL as single `ttf` file. -/
def nf_create_variant (filename url font_name : String) : Option Variant :=
  if pyInS "Bold" filename || pyInS "bold" filename then
    some { name := font_name ++ " Bold"
           weight := 700
           style := "normal"
           subsets := ["latin", "latin-ext"]
           files := [("ttf", url)] }
  else
    some { name := font_name ++ " Regular"
           weight := 400
           style := "normal"
           subsets := ["latin", "latin-ext"]
           files := [("ttf", url)] }

/-- The fixed popularity table of `_calculate_popularity`. -/
def nf_popular_fonts : List (String × Nat) :=
  [("Fira Code", 95), ("JetBrains Mono", 90), ("Cascadia Code", 85),
   ("Source Code Pro", 80), ("Hack", 75), ("Roboto Mono", 70),
   ("Ubuntu Mono", 65), ("DejaVu Sans Mono", 60), ("Mononoki", 55),
   ("Noto Sans Mono", 50), ("Space Mono", 45), ("Terminus", 40),
   ("Victor Mono", 35), ("Meslo", 30)]

def nf_calculate_popularity (font_name : String) : Nat :=
  match nf_popular_fonts.find? (fun p => p.1 == font_name) with
  | some p => p.2
  | none => 25

/-- A GitHub release asset; `none` fields model missing keys (the
subscript accesses `asset["name"]` / `asset["browser_download_url"]`
raise KeyError). -/
structure NfAsset where
  name : Option String
  browser_download_url : Option String
deriving DecidableEq

/-- The fresh font record `extract_font_info_from_assets` creates the
first time a font id appears. -/
def nf_new_font (env : RunEnv) (font_name : String) : Font :=
  { name := font_name
    family := font_name
    license := "Mixed"
    license_url := "https://raw.githubusercontent.com/ryanoasis/nerd-fonts/refs/heads/master/LICENSE"
    designer := "Ryan L McIntyre (Nerd Fonts Patcher)"
    foundry := "Nerd Fonts"
    version := "3.0.2"
    description := "Patched version of " ++ font_name ++ " with additional icon glyphs"
    categories := [normalize_category "Nerd Font"]
    tags := ["nerd-fonts", "icons", "patched", "monospace", "programming"]
    popularity := nf_calculate_popularity font_name
    last_modified := env.nowIso
    metadata_url := "https://github.com/ryanoasis/nerd-fonts"
    source_url := "https://github.com/ryanoasis/nerd-fonts/releases/latest"
    variants := []
    unicode_ranges := ["U+0000-00FF", "U+2190-21FF", "U+2600-26FF", "U+1F300-1F5FF"]
    languages := ["Latin", "Symbols"]
    sample_text := "Hello World! ⚡ 🔥 💻" }

/-- `fonts[font_id]["variants"].append(variant)`. -/
def appendVariant (m : List (String × Font)) (k : String) (v : Variant) :
    List (String × Font) :=
  m.map (fun p =>
    if p.1 == k then (p.1, { p.2 with variants := p.2.variants ++ [v] }) else p)

/-- One iteration of the asset loop of `extract_font_info_from_assets`.
There is NO try/except here: a missing key raises out of the loop. -/
def nf_process_asset (env : RunEnv) (m : List (String × Font)) (asset : NfAsset) :
    Except String (List (String × Font)) :=
  match asset.name with
  | none => .error "KeyError: name"
  | some name =>
    match asset.browser_download_url with
    | none => .error "KeyError: browser_download_url"
    | some url =>
      if !(strEndsWith name ".zip" || strEndsWith name ".tar.xz") then .ok m
      else
        match nf_extract_font_name name with
        | none => .ok m
        | some font_name =>
          let font_id := clean_id font_name
          let m1 := if m.any (fun p => p.1 == font_id) then m
                    else m ++ [(font_id, nf_new_font env font_name)]
          match nf_create_variant name url font_name with
          | some v => .ok (appendVariant m1 font_id v)
          | none => .ok m1

/-- The asset loop of `extract_font_info_from_assets`, state-threaded. -/
def nf_extract (env : RunEnv) : List NfAsset → List (String × Font) →
    Except String (List (String × Font))
  | [], m => .ok m
  | a :: rest, m =>
    match nf_process_asset env m a with
    | .error e => .error e
    | .ok m2 => nf_extract env rest m2

/-- `extract_font_info_from_assets` of `nerd-fonts-translator.py`. -/
def nf_extract_font_info (env : RunEnv) (assets : List NfAsset) :
    Except String (List (String × Font)) := nf_extract env assets []

/-- The latest GitHub release as `translate` reads it. -/
structure NfRelease where
  tag_name : Option String
  assets : List NfAsset
deriving DecidableEq

/-- `translate` of `nerd-fonts-translator.py` on an already-fetched
latest release (the `tag_name` subscript in the progress print raises
when absent). -/
def nf_translate (env : RunEnv) (rel : NfRelease) : Except String SourceDoc :=
  match rel.tag_name with
  | none => .error "KeyError: tag_name"
  | some _ =>
    match nf_extract_font_info env rel.assets with
    | .error e => .error e
    | .ok fonts =>
      .ok { source_info :=
              { name := "Nerd Fonts"
                description := "Patched fonts with additional icon glyphs for programming"
                url := "https://www.nerdfonts.com"
                api_endpoint := "https://api.github.com/repos/ryanoasis/nerd-fonts/releases"
                version := "1.0"
                last_updated := env.nowIso
                total_fonts := fonts.length }
            fonts := fonts }

/-! ## Font Squirrel translator -/

/-- A Font Squirrel `fontlist/all` item - the fields `transform_font`
reads.  String fields model `.get(key, "")` (missing and `""` collapse -
harmless here because both make `transform_font` return `None` before any
other use); `foundry`/`version` keep the missing/present distinction
their non-empty defaults need.  `details` is always `{}` in the source
(the familyinfo fetch is skipped), so its uses are dropped. -/
structure FsItem where
  family_name : String
  family_urlname : String
  classification : Option String
  designer : String
  foundry : Option String
  version : Option String
  description : String
  date_added : String
deriving DecidableEq

/-- The Font Squirrel `category_mapping` (its own, smaller table). -/
def fs_category_mapping : List (String × String) :=
  [("sans-serif", "Sans Serif"), ("serif", "Serif"), ("display", "Display"),
   ("handwriting", "Handwriting"), ("monospace", "Monospace"),
   ("script", "Script"), ("decorative", "Decorative"), ("symbol", "Symbol"),
   ("icon", "Icon")]

/-- `_transform_variants` with empty `details`: the single fallback
Regular variant pointing at the fontfacekit URL. -/
def fs_transform_variants (it : FsItem) : List Variant :=
  [{ name := it.family_name ++ " Regular"
     weight := 400
     style := "normal"
     subsets := ["latin"]
     files := [("ttf",
       if it.family_urlname.data.isEmpty then ""
       else "https://www.fontsquirrel.com/fontfacekit/" ++ it.family_urlname)] }]

/-- `_calculate_popularity` of `font-squirrel-translator.py`: the recency
bonus reads the CURRENT CLOCK through `datetime.now()`, here
`env.daysOld` (`none` models the swallowed parse failure). -/
def fs_calculate_popularity (env : RunEnv) (it : FsItem) : Nat :=
  min
    (50 + (if !it.description.data.isEmpty then 10 else 0) +
      (if !it.designer.data.isEmpty then 10 else 0) +
      (if it.date_added.data.isEmpty then 0
       else match env.daysOld it.date_added with
            | none => 0
            | some d => if d < 30 then 10 else if d < 90 then 5 else 0))
    100

/-- `_extract_tags` of `font-squirrel-translator.py`: the result passes
through `list(set(tags))`, whose order is the interpreter's (hash-seed
dependent) set-iteration order - `env.setOrder`. -/
def fs_extract_tags (env : RunEnv) (it : FsItem) : List String :=
  env.setOrder
    ((match it.classification with
      | some c => [pyReplaceChar ' ' '-' (pyLower c)]
      | none => []) ++
     (if !it.designer.data.isEmpty then ["designer-font"] else []) ++
     (if optTruthy it.foundry then ["foundry-font"] else []))

/-- `transform_font` of `font-squirrel-translator.py`: `None` when the
family name or urlname is missing/empty, else the record. -/
def fs_transform_font (env : RunEnv) (it : FsItem) : Option Font :=
  if it.family_name.data.isEmpty || it.family_urlname.data.isEmpty then none
  else some
    { name := it.family_name
      family := it.family_name
      license := "See license page"
      license_url := "https://www.fontsquirrel.com/license/" ++ it.family_urlname
      designer := it.designer
      foundry := it.foundry.getD "Font Squirrel"
      version := it.version.getD "1.0"
      description := it.description
      categories :=
        match it.classification with
        | some cl =>
          match fs_category_mapping.find? (fun p => p.1 == pyLower cl) with
          | some p => [p.2]
          | none => []
        | none => []
      tags := fs_extract_tags env it
      popularity := fs_calculate_popularity env it
      last_modified := it.date_added
      metadata_url := "https://www.fontsquirrel.com/fonts/" ++ it.family_urlname
      source_url := "https://www.fontsquirrel.com/fonts/" ++ it.family_urlname
      variants := fs_transform_variants it
      unicode_ranges := ["U+0000-00FF", "U+0100-017F"]
      languages := ["Latin", "Latin Extended"]
      sample_text := "The quick brown fox jumps over the lazy dog" }

/-- The per-item loop of Font Squirrel's `translate` (no limit slicing). -/
def fs_process (env : RunEnv) (items : List FsItem) : List (String × Font) :=
  items.foldl (fun fonts it =>
    match fs_transform_font env it with
    | some f => dictInsert fonts (clean_id it.family_name) f
    | none => fonts) []

/-- `translate` of `font-squirrel-translator.py` on already-fetched
items. -/
def fs_translate (env : RunEnv) (items : List FsItem) : SourceDoc :=
  { source_info :=
      { name := "Font Squirrel"
        description := "Free fonts from Font Squirrel"
        url := "https://www.fontsquirrel.com"
        api_endpoint := "https://www.fontsquirrel.com/api/fontlist/all"
        version := "1.0"
        last_updated := env.nowIso
        total_fonts := (fs_process env items).length }
    fonts := fs_process env items }

/-- A concrete run environment. -/
def envA : RunEnv :=
  { nowIso := "2025-01-01T00:00:00Z", daysOld := fun _ => none,
    setOrder := fun l => l }

/-- The same world 10 days after a font was added. -/
def envNow1 : RunEnv :=
  { nowIso := "T", daysOld := fun _ => some 10, setOrder := fun l => l }

/-- The same world 200 days after: identical fetched input, later clock. -/
def envNow2 : RunEnv :=
  { nowIso := "T", daysOld := fun _ => some 200, setOrder := fun l => l }

/-- A Font Squirrel item with a `date_added` and otherwise empty data. -/
def fsItemDated : FsItem :=
  { family_name := "Zeta"
    family_urlname := "zeta"
    classification := none
    designer := ""
    foundry := none
    version := none
    description := ""
    date_added := "2024-01-01" }

/-- **C6 (counterexample).** Running the Font Squirrel transform twice on
identical fetched input but at different wall-clock times yields different
`fonts` content: the differing field is `popularity` (60 vs 50), not a
timestamp - `last_modified` agrees.  Determinism fails for this
translator. -/
theorem fs_transform_not_clock_invariant :
    fs_transform_font envNow1 fsItemDated ≠ fs_transform_font envNow2 fsItemDated ∧
    (fs_transform_font envNow1 fsItemDated).map Font.popularity = some 60 ∧
    (fs_transform_font envNow2 fsItemDated).map Font.popularity = some 50 ∧
    (fs_transform_font envNow1 fsItemDated).map Font.last_modified =
      (fs_transform_font envNow2 fsItemDated).map Font.last_modified := by
  refine ⟨by decide, rfl, rfl, rfl⟩

/-- **C5 (counterexample).** The Nerd Fonts per-asset loop has no
try/except: an asset whose `name` key is missing raises KeyError out of
`extract_font_info_from_assets`, aborting the whole run (no fonts map is
produced at all) - whether the bad asset comes before or after a good
one.  A per-item transform error DOES abort this translator's run. -/
theorem nf_extract_aborts_on_bad_item :
    nf_extract_font_info envA
      [{ name := none, browser_download_url := some "u" },
       { name := some "FiraCode.zip",
         browser_download_url := some "https://example.org/FiraCode.zip" }] =
      .error "KeyError: name" ∧
    nf_extract_font_info envA
      [{ name := some "FiraCode.zip",
         browser_download_url := some "https://example.org/FiraCode.zip" },
       { name := none, browser_download_url := some "u" }] =
      .error "KeyError: name" := by
  constructor
  · rfl
  · rfl

/-! ## C6: determinism up to timestamps -/

/-- Erase the one field the spec permits to differ between runs. -/
def eraseLM (f : Font) : Font := { f with last_modified := "" }

def erasePair (p : String × Font) : String × Font := (p.1, eraseLM p.2)

theorem erasePair_cons {p : String × Font} {t m2 : List (String × Font)}
    (h : (p :: t).map erasePair = m2.map erasePair) :
    ∃ q s, m2 = q :: s ∧ erasePair p = erasePair q ∧
      t.map erasePair = s.map erasePair := by
  cases m2 with
  | nil => simp at h
  | cons q s =>
    simp only [List.map_cons, List.cons.injEq] at h
    exact ⟨q, s, rfl, h.1, h.2⟩

theorem erasePair_fst {p q : String × Font} (h : erasePair p = erasePair q) :
    p.1 = q.1 := by
  have h2 : (p.1, eraseLM p.2) = (q.1, eraseLM q.2) := h
  injection h2 with h3 h4

theorem erasePair_snd {p q : String × Font} (h : erasePair p = erasePair q) :
    eraseLM p.2 = eraseLM q.2 := by
  have h2 : (p.1, eraseLM p.2) = (q.1, eraseLM q.2) := h
  injection h2 with h3 h4

theorem any_key_of_map_erase :
    ∀ (m1 m2 : List (String × Font)),
      m1.map erasePair = m2.map erasePair → ∀ k : String,
      m1.any (fun p => p.1 == k) = m2.any (fun p => p.1 == k) := by
  intro m1
  induction m1 with
  | nil =>
    intro m2 h k
    cases m2 with
    | nil => rfl
    | cons q s => simp at h
  | cons p t ih =>
    intro m2 h k
    obtain ⟨q, s, rfl, hpq, hts⟩ := erasePair_cons h
    simp only [List.any_cons, erasePair_fst hpq, ih s hts k]

theorem map_overwrite_erase :
    ∀ (m1 m2 : List (String × Font)) (k : String) (v1 v2 : Font),
      m1.map erasePair = m2.map erasePair → eraseLM v1 = eraseLM v2 →
      (m1.map (fun p => if p.1 == k then (p.1, v1) else p)).map erasePair =
        (m2.map (fun p => if p.1 == k then (p.1, v2) else p)).map erasePair := by
  intro m1
  induction m1 with
  | nil =>
    intro m2 k v1 v2 h hv
    cases m2 with
    | nil => rfl
    | cons q s => simp at h
  | cons p t ih =>
    intro m2 k v1 v2 h hv
    obtain ⟨q, s, rfl, hpq, hts⟩ := erasePair_cons h
    simp only [List.map_cons]
    have hfst := erasePair_fst hpq
    rw [List.cons.injEq]
    constructor
    · rw [hfst]
      by_cases hk : (q.1 == k) = true
      · rw [if_pos hk, if_pos hk]
        simp only [erasePair]
        rw [hv]
      · rw [if_neg hk, if_neg hk]
        exact hpq
    · exact ih s k v1 v2 hts hv

theorem dictInsert_erase (m1 m2 : List (String × Font)) (k : String)
    (v1 v2 : Font) (h : m1.map erasePair = m2.map erasePair)
    (hv : eraseLM v1 = eraseLM v2) :
    (dictInsert m1 k v1).map erasePair = (dictInsert m2 k v2).map erasePair := by
  unfold dictInsert
  rw [← any_key_of_map_erase m1 m2 h k]
  by_cases hm : m1.any (fun p => p.1 == k) = true
  · rw [if_pos hm, if_pos hm]
    exact map_overwrite_erase m1 m2 k v1 v2 h hv
  · rw [if_neg hm, if_neg hm]
    rw [List.map_append, List.map_append, h]
    simp only [List.map_cons, List.map_nil, erasePair]
    rw [hv]

theorem eraseLM_of_font_record (e1 e2 : RunEnv) (family : String)
    (items : List OfRow) (variants : List Variant) :
    eraseLM (of_font_record e1 family items variants) =
      eraseLM (of_font_record e2 family items variants) := rfl

theorem of_build_fonts_erase (e1 e2 : RunEnv) :
    ∀ (groups : List (String × List OfRow)) (acc1 acc2 : List (String × Font)),
      acc1.map erasePair = acc2.map erasePair →
      (groups.foldl (fun fonts g =>
        let variants := of_variants_loop g.1 [] g.2
        if variants.isEmpty then fonts
        else dictInsert fonts (clean_id g.1)
          (of_font_record e1 g.1 g.2 variants)) acc1).map erasePair =
      (groups.foldl (fun fonts g =>
        let variants := of_variants_loop g.1 [] g.2
        if variants.isEmpty then fonts
        else dictInsert fonts (clean_id g.1)
          (of_font_record e2 g.1 g.2 variants)) acc2).map erasePair := by
  intro groups
  induction groups with
  | nil => intro acc1 acc2 h; exact h
  | cons g rest ih =>
    intro acc1 acc2 h
    simp only [List.foldl_cons]
    by_cases hv : (of_variants_loop g.1 [] g.2).isEmpty = true
    · simp only [hv, if_true]
      exact ih acc1 acc2 h
    · simp only [hv, if_false]
      exact ih _ _ (dictInsert_erase _ _ _ _ _ h
        (eraseLM_of_font_record e1 e2 g.1 g.2 _))

theorem eraseLM_append_variant (f : Font) (v : Variant) :
    eraseLM { f with variants := f.variants ++ [v] } =
      { eraseLM f with variants := (eraseLM f).variants ++ [v] } := rfl

theorem appendVariant_erase :
    ∀ (m1 m2 : List (String × Font)) (k : String) (v : Variant),
      m1.map erasePair = m2.map erasePair →
      (appendVariant m1 k v).map erasePair =
        (appendVariant m2 k v).map erasePair := by
  intro m1
  induction m1 with
  | nil =>
    intro m2 k v h
    cases m2 with
    | nil => rfl
    | cons q s => simp at h
  | cons p t ih =>
    intro m2 k v h
    obtain ⟨q, s, rfl, hpq, hts⟩ := erasePair_cons h
    simp only [appendVariant, List.map_cons]
    have hfst := erasePair_fst hpq
    have hsnd : eraseLM p.2 = eraseLM q.2 := erasePair_snd hpq
    rw [List.cons.injEq]
    constructor
    · rw [hfst]
      by_cases hk : (q.1 == k) = true
      · rw [if_pos hk, if_pos hk]
        simp only [erasePair]
        rw [eraseLM_append_variant, eraseLM_append_variant, hsnd]
      · rw [if_neg hk, if_neg hk]
        exact hpq
    · have := ih s k v hts
      simpa [appendVariant] using this

theorem nf_extract_erase (e1 e2 : RunEnv) :
    ∀ (assets : List NfAsset) (m1 m2 : List (String × Font)),
      m1.map erasePair = m2.map erasePair →
      (nf_extract e1 assets m1).map (List.map erasePair) =
        (nf_extract e2 assets m2).map (List.map erasePair) := by
  intro assets
  induction assets with
  | nil =>
    intro m1 m2 h
    simp only [nf_extract, Except.map]
    rw [h]
  | cons a rest ih =>
    intro m1 m2 h
    simp only [nf_extract]
    cases hn : a.name with
    | none =>
      have h1 : nf_process_asset e1 m1 a = .error "KeyError: name" := by
        simp [nf_process_asset, hn]
      have h2 : nf_process_asset e2 m2 a = .error "KeyError: name" := by
        simp [nf_process_asset, hn]
      rw [h1, h2]
    | some name =>
      cases hu : a.browser_download_url with
      | none =>
        have h1 : nf_process_asset e1 m1 a =
            .error "KeyError: browser_download_url" := by
          simp [nf_process_asset, hn, hu]
        have h2 : nf_process_asset e2 m2 a =
            .error "KeyError: browser_download_url" := by
          simp [nf_process_asset, hn, hu]
        rw [h1, h2]
      | some url =>
        by_cases hz : (!(strEndsWith name ".zip" || strEndsWith name ".tar.xz")) = true
        · have h1 : nf_process_asset e1 m1 a = .ok m1 := by
            simp [nf_process_asset, hn, hu, hz]
          have h2 : nf_process_asset e2 m2 a = .ok m2 := by
            simp [nf_process_asset, hn, hu, hz]
          rw [h1, h2]
          exact ih m1 m2 h
        · cases hf : nf_extract_font_name name with
          | none =>
            have h1 : nf_process_asset e1 m1 a = .ok m1 := by
              simp [nf_process_asset, hn, hu, hz, hf]
            have h2 : nf_process_asset e2 m2 a = .ok m2 := by
              simp [nf_process_asset, hn, hu, hz, hf]
            rw [h1, h2]
            exact ih m1 m2 h
          | some font_name =>
            have hm1 : (if m1.any (fun p => p.1 == clean_id font_name) then m1
                else m1 ++ [(clean_id font_name, nf_new_font e1 font_name)]).map erasePair =
              (if m2.any (fun p => p.1 == clean_id font_name) then m2
                else m2 ++ [(clean_id font_name, nf_new_font e2 font_name)]).map erasePair := by
              rw [← any_key_of_map_erase m1 m2 h (clean_id font_name)]
              by_cases ha : m1.any (fun p => p.1 == clean_id font_name) = true
              · rw [if_pos ha, if_pos ha]; exact h
              · rw [if_neg ha, if_neg ha]
                rw [List.map_append, List.map_append, h]
                rfl
            cases hc : nf_create_variant name url font_name with
            | none =>
              have h1 : nf_process_asset e1 m1 a =
                  .ok (if m1.any (fun p => p.1 == clean_id font_name) then m1
                    else m1 ++ [(clean_id font_name, nf_new_font e1 font_name)]) := by
                simp [nf_process_asset, hn, hu, hz, hf, hc]
              have h2 : nf_process_asset e2 m2 a =
                  .ok (if m2.any (fun p => p.1 == clean_id font_name) then m2
                    else m2 ++ [(clean_id font_name, nf_new_font e2 font_name)]) := by
                simp [nf_process_asset, hn, hu, hz, hf, hc]
              rw [h1, h2]
              exact ih _ _ hm1
            | some v =>
              have h1 : nf_process_asset e1 m1 a =
                  .ok (appendVariant
                    (if m1.any (fun p => p.1 == clean_id font_name) then m1
                      else m1 ++ [(clean_id font_name, nf_new_font e1 font_name)])
                    (clean_id font_name) v) := by
                simp [nf_process_asset, hn, hu, hz, hf, hc]
              have h2 : nf_process_asset e2 m2 a =
                  .ok (appendVariant
                    (if m2.any (fun p => p.1 == clean_id font_name) then m2
                      else m2 ++ [(clean_id font_name, nf_new_font e2 font_name)])
                    (clean_id font_name) v) := by
                simp [nf_process_asset, hn, hu, hz, hf, hc]
              rw [h1, h2]
              exact ih _ _ (appendVariant_erase _ _ _ _ hm1)

/-- **C6 (amended).** The Google Fonts transform stage is fully
deterministic in the fetched input (its `fonts` content does not observe
the clock or the hash seed at all); the Open Foundry and Nerd Fonts
`fonts` content is deterministic up to the per-font `last_modified`
timestamp.  Font Squirrel is the exception: its `popularity` reads the
wall clock and its `tags` order the set-iteration order (see the
counterexample). -/
theorem translators_deterministic_up_to_timestamps :
    (∀ (e1 e2 : RunEnv) (items : List GfItem),
      (gf_translate e1 items).fonts = (gf_translate e2 items).fonts) ∧
    (∀ (e1 e2 : RunEnv) (rows : List OfRow),
      (of_translate e1 rows).fonts.map erasePair =
        (of_translate e2 rows).fonts.map erasePair) ∧
    (∀ (e1 e2 : RunEnv) (assets : List NfAsset),
      (nf_extract_font_info e1 assets).map (List.map erasePair) =
        (nf_extract_font_info e2 assets).map (List.map erasePair)) := by
  refine ⟨fun e1 e2 items => rfl, fun e1 e2 rows => ?_, fun e1 e2 assets => ?_⟩
  · exact of_build_fonts_erase e1 e2 (of_group_rows rows) [] [] rfl
  · exact nf_extract_erase e1 e2 assets [] [] rfl

/-! ## C8: every fonts key is the slug of the record's name -/

/-- The C8 invariant of a fonts dict. -/
def keyIsSlug (m : List (String × Font)) : Prop :=
  ∀ p ∈ m, clean_id p.2.name = p.1

theorem keyIsSlug_nil : keyIsSlug [] := by
  intro p hp
  simp at hp

theorem keyIsSlug_dictInsert {m : List (String × Font)} {k : String} {v : Font}
    (hm : keyIsSlug m) (hv : clean_id v.name = k) :
    keyIsSlug (dictInsert m k v) := by
  unfold dictInsert
  by_cases ha : m.any (fun p => p.1 == k) = true
  · rw [if_pos ha]
    intro p hp
    obtain ⟨q, hq, hfq⟩ := List.mem_map.mp hp
    by_cases hqk : (q.1 == k) = true
    · rw [if_pos hqk] at hfq
      rw [← hfq]
      have : q.1 = k := beq_iff_eq.mp hqk
      rw [this]
      exact hv
    · rw [if_neg hqk] at hfq
      rw [← hfq]
      exact hm q hq
  · rw [if_neg ha]
    intro p hp
    rcases List.mem_append.mp hp with hp | hp
    · exact hm p hp
    · have : p = (k, v) := List.mem_singleton.mp hp
      rw [this]
      exact hv

theorem keyIsSlug_append_new {m : List (String × Font)} {k : String} {v : Font}
    (hm : keyIsSlug m) (hv : clean_id v.name = k) :
    keyIsSlug (m ++ [(k, v)]) := by
  intro p hp
  rcases List.mem_append.mp hp with hp | hp
  · exact hm p hp
  · have : p = (k, v) := List.mem_singleton.mp hp
    rw [this]
    exact hv

theorem keyIsSlug_appendVariant {m : List (String × Font)} {k : String}
    {v : Variant} (hm : keyIsSlug m) : keyIsSlug (appendVariant m k v) := by
  intro p hp
  obtain ⟨q, hq, hfq⟩ := List.mem_map.mp hp
  by_cases hqk : (q.1 == k) = true
  · rw [if_pos hqk] at hfq
    rw [← hfq]
    exact hm q hq
  · rw [if_neg hqk] at hfq
    rw [← hfq]
    exact hm q hq

theorem gf_entry_key {it : GfItem} {k : String} {f : Font}
    (h : gf_item_entry it = .ok (k, f)) : clean_id f.name = k := by
  unfold gf_item_entry at h
  cases htf : gf_transform_font it with
  | error e =>
    rw [htf] at h
    exact Except.noConfusion h
  | ok f2 =>
    rw [htf] at h
    cases hfam : it.family with
    | none =>
      rw [hfam] at h
      exact Except.noConfusion h
    | some fam =>
      rw [hfam] at h
      have hk : clean_id fam = k ∧ f2 = f := by
        have h2 := Except.ok.inj h
        exact ⟨congrArg Prod.fst h2, congrArg Prod.snd h2⟩
      have hname : f2.name = fam := by
        unfold gf_transform_font at htf
        rw [hfam] at htf
        have htf3 : (match gf_collect_variants fam it it.variants with
            | Except.error e => Except.error e
            | Except.ok vs => Except.ok (gf_font_of fam it vs)) =
            Except.ok f2 := htf
        cases hcv : gf_collect_variants fam it it.variants with
        | error e =>
          rw [hcv] at htf3
          exact Except.noConfusion htf3
        | ok vs =>
          rw [hcv] at htf3
          have hr := Except.ok.inj htf3
          rw [← hr]
          rfl
      rw [← hk.2, hname]
      exact hk.1

theorem gf_process_aux_keyIsSlug :
    ∀ (items : List GfItem) (fonts : List (String × Font)) (w : List String),
      keyIsSlug fonts → keyIsSlug (gf_process_aux fonts w items).1 := by
  intro items
  induction items with
  | nil => intro fonts w h; exact h
  | cons it rest ih =>
    intro fonts w h
    cases he : gf_item_entry it with
    | ok kf =>
      simp only [gf_process_aux, he]
      have hkey : clean_id kf.2.name = kf.1 := gf_entry_key (by rw [he])
      exact ih _ _ (keyIsSlug_dictInsert h hkey)
    | error e =>
      simp only [gf_process_aux, he]
      exact ih _ _ h

theorem of_build_fonts_keyIsSlug (env : RunEnv) :
    ∀ (groups : List (String × List OfRow)) (acc : List (String × Font)),
      keyIsSlug acc →
      keyIsSlug (groups.foldl (fun fonts g =>
        let variants := of_variants_loop g.1 [] g.2
        if variants.isEmpty then fonts
        else dictInsert fonts (clean_id g.1)
          (of_font_record env g.1 g.2 variants)) acc) := by
  intro groups
  induction groups with
  | nil => intro acc h; exact h
  | cons g rest ih =>
    intro acc h
    simp only [List.foldl_cons]
    by_cases hv : (of_variants_loop g.1 [] g.2).isEmpty = true
    · simp only [hv, if_true]
      exact ih acc h
    · simp only [hv, if_false]
      exact ih _ (keyIsSlug_dictInsert h rfl)

theorem nf_process_asset_keyIsSlug {env : RunEnv} {m : List (String × Font)}
    {a : NfAsset} {res : List (String × Font)}
    (h : nf_process_asset env m a = .ok res) (hm : keyIsSlug m) :
    keyIsSlug res := by
  unfold nf_process_asset at h
  cases hn : a.name with
  | none =>
    simp only [hn] at h
    exact Except.noConfusion h
  | some name =>
    simp only [hn] at h
    cases hu : a.browser_download_url with
    | none =>
      simp only [hu] at h
      exact Except.noConfusion h
    | some url =>
      simp only [hu] at h
      by_cases hz : (!(strEndsWith name ".zip" || strEndsWith name ".tar.xz")) = true
      · rw [if_pos hz] at h
        rw [← Except.ok.inj h]
        exact hm
      · rw [if_neg hz] at h
        cases hf : nf_extract_font_name name with
        | none =>
          simp only [hf] at h
          rw [← Except.ok.inj h]
          exact hm
        | some font_name =>
          simp only [hf] at h
          have hm1 : keyIsSlug
              (if m.any (fun p => p.1 == clean_id font_name) then m
               else m ++ [(clean_id font_name, nf_new_font env font_name)]) := by
            by_cases ha : m.any (fun p => p.1 == clean_id font_name) = true
            · rw [if_pos ha]; exact hm
            · rw [if_neg ha]; exact keyIsSlug_append_new hm rfl
          cases hc : nf_create_variant name url font_name with
          | none =>
            simp only [hc] at h
            rw [← Except.ok.inj h]
            exact hm1
          | some v =>
            simp only [hc] at h
            rw [← Except.ok.inj h]
            exact keyIsSlug_appendVariant hm1

theorem nf_extract_keyIsSlug (env : RunEnv) :
    ∀ (assets : List NfAsset) (m : List (String × Font)), keyIsSlug m →
      ∀ res, nf_extract env assets m = .ok res → keyIsSlug res := by
  intro assets
  induction assets with
  | nil =>
    intro m hm res h
    simp only [nf_extract] at h
    rw [← Except.ok.inj h]
    exact hm
  | cons a rest ih =>
    intro m hm res h
    simp only [nf_extract] at h
    cases hp : nf_process_asset env m a with
    | error e =>
      rw [hp] at h
      exact Except.noConfusion h
    | ok m2 =>
      rw [hp] at h
      exact ih m2 (nf_process_asset_keyIsSlug hp hm) res h

/-- **C8.** In the Google Fonts, Open Foundry and Nerd Fonts translators,
every key of the produced fonts mapping equals `_clean_id` of the
corresponding record's name field: the font id is derived
deterministically from the name. -/
theorem fonts_key_is_slug_of_name :
    (∀ (items : List GfItem) (p : String × Font),
      p ∈ (gf_process items).1 → clean_id p.2.name = p.1) ∧
    (∀ (env : RunEnv) (rows : List OfRow) (p : String × Font),
      p ∈ (of_translate env rows).fonts → clean_id p.2.name = p.1) ∧
    (∀ (env : RunEnv) (assets : List NfAsset) (m : List (String × Font))
      (p : String × Font), nf_extract_font_info env assets = .ok m →
      p ∈ m → clean_id p.2.name = p.1) := by
  refine ⟨?_, ?_, ?_⟩
  · intro items p hp
    exact gf_process_aux_keyIsSlug items [] [] keyIsSlug_nil p hp
  · intro env rows p hp
    exact of_build_fonts_keyIsSlug env (of_group_rows rows) [] keyIsSlug_nil p hp
  · intro env assets m p h hp
    exact nf_extract_keyIsSlug env assets [] keyIsSlug_nil m h p hp

/-- A padding record for total `head?` projections in witnesses. -/
def padFont : Font := nf_new_font envA "pad"

/-- Witness for `fonts_key_is_slug_of_name`: the single entry the Open
Foundry translator produces for `ofRowTtf` satisfies the invariant. -/
theorem fonts_key_is_slug_of_name_witness :
    clean_id (((of_translate envA [ofRowTtf]).fonts.head?.getD
        ("", padFont)).2.name) =
      ((of_translate envA [ofRowTtf]).fonts.head?.getD ("", padFont)).1 :=
  fonts_key_is_slug_of_name.2.1 envA [ofRowTtf] _ (by decide)

/-! ## C10: total_fonts equals the number of retained fonts -/

/-- An empty release for witnesses. -/
def nfRelease0 : NfRelease := { tag_name := some "v3.0.2", assets := [] }

def nfDocPad : SourceDoc := of_translate envA []

/-- **C10.** Every translator writes
`source_info.total_fonts = len(fonts)`: the count reflects the fonts
actually retained after skips and drops. -/
theorem total_fonts_eq_count :
    (∀ (env : RunEnv) (items : List GfItem),
      (gf_translate env items).source_info.total_fonts =
        (gf_translate env items).fonts.length) ∧
    (∀ (env : RunEnv) (items : List FsItem),
      (fs_translate env items).source_info.total_fonts =
        (fs_translate env items).fonts.length) ∧
    (∀ (env : RunEnv) (rows : List OfRow),
      (of_translate env rows).source_info.total_fonts =
        (of_translate env rows).fonts.length) ∧
    (∀ (env : RunEnv) (rel : NfRelease) (doc : SourceDoc),
      nf_translate env rel = .ok doc →
      doc.source_info.total_fonts = doc.fonts.length) := by
  refine ⟨fun env items => rfl, fun env items => rfl, fun env rows => rfl,
    fun env rel doc h => ?_⟩
  unfold nf_translate at h
  cases ht : rel.tag_name with
  | none =>
    simp only [ht] at h
    exact Except.noConfusion h
  | some tag =>
    simp only [ht] at h
    cases hx : nf_extract_font_info env rel.assets with
    | error e =>
      simp only [hx] at h
      exact Except.noConfusion h
    | ok fonts =>
      simp only [hx] at h
      rw [← Except.ok.inj h]

/-- Witness for `total_fonts_eq_count`: the Nerd Fonts translator on a
concrete (empty-assets) release. -/
theorem total_fonts_eq_count_witness :
    ((nf_translate envA nfRelease0).toOption.getD nfDocPad).source_info.total_fonts =
      ((nf_translate envA nfRelease0).toOption.getD nfDocPad).fonts.length :=
  total_fonts_eq_count.2.2.2 envA nfRelease0 _ rfl

/-! ## C9: the validator -/

/-- A font entry as the validator's heuristics see it: whether
`popularity` is present, and the `variants` list (absent modelled as
`none`; the entries themselves are irrelevant). -/
structure VFont where
  popularity : Option Int
  variants : Option (List Unit)
deriving DecidableEq

/-- A parsed document as the validator sees it (presence of `source_info`
and the `fonts` dict). -/
structure VDoc where
  source_info : Option Unit
  fonts : Option (List (String × VFont))
deriving DecidableEq

/-- Modelled from the spec: the JSON-Schema file
`font-source-schema.json` is loaded by `validate-sources.py` but is not
under src/; per the spec the schema checks the source-document shape, in
particular that the top-level `source_info` and `fonts` keys are present;
`iter_errors` yields one path+message line per violation. -/
def schema_iter_errors (doc : VDoc) : List String :=
  (if doc.source_info.isNone then [": 'source_info' is a required property"]
   else []) ++
  (if doc.fonts.isNone then [": 'fonts' is a required property"] else [])

/-- `len(fonts_without_popularity)` of `_check_warnings`. -/
def countNoPopularity (doc : VDoc) : Nat :=
  ((doc.fonts.getD []).filter (fun p => p.2.popularity.isNone)).length

/-- `len(single_variant_fonts)` of `_check_warnings`. -/
def countSingleVariant (doc : VDoc) : Nat :=
  ((doc.fonts.getD []).filter
    (fun p => (p.2.variants.getD []).length == 1)).length

/-- `_check_warnings` of `validate-sources.py`: the three heuristics, in
order. -/
def check_warnings (doc : VDoc) : List String :=
  (if (match doc.fonts with
       | none => true
       | some l => l.isEmpty) then ["No fonts found in source"] else []) ++
  (if countNoPopularity doc ≠ 0 then
    ["Fonts without popularity data: " ++ toString (countNoPopularity doc)]
   else []) ++
  (if countSingleVariant doc ≠ 0 then
    ["Fonts with only one variant: " ++ toString (countSingleVariant doc)]
   else [])

/-- The result triple of `validate_file` (file IO and JSON parsing
aside). -/
structure VResult where
  valid : Bool
  errors : List String
  warnings : List String
deriving DecidableEq

/-- The document-level core of `validate_file`. -/
def validate_doc (doc : VDoc) : VResult :=
  { valid := (schema_iter_errors doc).isEmpty
    errors := schema_iter_errors doc
    warnings := check_warnings doc }

/-- **C9.** A document missing the `fonts` key validates as
`valid = false` with a schema error, and its warnings are exactly
"No fonts found in source"; in general the warnings are exactly the three
heuristics (no/empty fonts; count of fonts lacking popularity; count of
fonts with exactly one variant). -/
theorem validator_missing_fonts_spec :
    (∀ doc : VDoc, doc.fonts = none →
      (validate_doc doc).valid = false ∧
      (validate_doc doc).errors ≠ [] ∧
      (validate_doc doc).warnings = ["No fonts found in source"]) ∧
    (∀ doc : VDoc, check_warnings doc =
      (if doc.fonts = none ∨ doc.fonts = some [] then
        ["No fonts found in source"] else []) ++
      (if countNoPopularity doc ≠ 0 then
        ["Fonts without popularity data: " ++ toString (countNoPopularity doc)]
       else []) ++
      (if countSingleVariant doc ≠ 0 then
        ["Fonts with only one variant: " ++ toString (countSingleVariant doc)]
       else [])) := by
  have hgen : ∀ doc : VDoc, check_warnings doc =
      (if doc.fonts = none ∨ doc.fonts = some [] then
        ["No fonts found in source"] else []) ++
      (if countNoPopularity doc ≠ 0 then
        ["Fonts without popularity data: " ++ toString (countNoPopularity doc)]
       else []) ++
      (if countSingleVariant doc ≠ 0 then
        ["Fonts with only one variant: " ++ toString (countSingleVariant doc)]
       else []) := by
    intro doc
    unfold check_warnings
    congr 1
    cases hf : doc.fonts with
    | none => simp
    | some l =>
      cases l with
      | nil => simp
      | cons p t => simp
  refine ⟨fun doc h => ?_, hgen⟩
  refine ⟨?_, ?_, ?_⟩
  · show (schema_iter_errors doc).isEmpty = false
    unfold schema_iter_errors
    rw [h]
    simp
  · show schema_iter_errors doc ≠ []
    unfold schema_iter_errors
    rw [h]
    simp
  · show check_warnings doc = ["No fonts found in source"]
    rw [hgen]
    have h1 : countNoPopularity doc = 0 := by
      unfold countNoPopularity
      rw [h]
      rfl
    have h2 : countSingleVariant doc = 0 := by
      unfold countSingleVariant
      rw [h]
      rfl
    rw [h1, h2]
    simp [h]

/-- Witness for `validator_missing_fonts_spec` at the concrete document
`{"source_info": {...}}` with no `fonts` key. -/
theorem validator_missing_fonts_spec_witness :
    (validate_doc { source_info := some (), fonts := none }).valid = false ∧
    (validate_doc { source_info := some (), fonts := none }).errors ≠ [] ∧
    (validate_doc { source_info := some (), fonts := none }).warnings =
      ["No fonts found in source"] :=
  validator_missing_fonts_spec.1 { source_info := some (), fonts := none } rfl
